import Mathlib

/-!
# TTS speaker task (`speaker.cpp`): framed PCM playback over one TCP client

Shallow embedding of `speakerTask`.  The socket, the clock and the I2S sink
are not part of the program; they are represented by

* a schedule `env pos rd` telling what the WiFi library reports at the
  `pos`-th poll of the socket when `rd` bytes have been taken from it so far
  (the schedule may react to how much has been consumed, as a peer that
  closes once its data has been read does),
* the byte sequence `wire` still to be taken from the socket,
* the 32-bit millisecond counter `millis`,
* a log of the calls `speakerTask` makes (socket reads, `i2s_write`,
  `i2s_zero_dma_buffer`, `client.stop()`, stores to `is_playing_tts`).

One poll is one iteration of a receive loop: the iteration evaluates
`client.connected()` and `client.available()` and then either reads or
sleeps.  `client.connected()` evaluated again before the next read or sleep
(lines 62, 90) sees the same report.

The loops of the source carry a fuel argument that bounds the number of
iterations; a run that exhausts its fuel returns `none` together with the
state reached so far, so a statement made for every amount of fuel speaks
about every state `speakerTask` passes through at a loop head.
-/

namespace Speaker

/-- A `uint8_t`. -/
abbrev Byte := Fin 256

/-- The modulus of `uint32_t`, `size_t` and `unsigned long` on the target. -/
def U32 : Nat := 4294967296

/-- Capacity of `static uint8_t netbuf[1024]`, i.e. `sizeof(netbuf)`. -/
def NETBUF : Nat := 1024

/-- Size of `uint8_t header[16]`. -/
def HEADER : Nat := 16

/-- The stall deadline in milliseconds used by both receive loops. -/
def DEADLINE : Nat := 5000

/-- The magic tag `'P'` expected in `header[0]`. -/
def MAGIC : Byte := 80

/-- Length in milliseconds of one empty poll.  A single wait is taken to be
shorter than 2^32 - 5000 ms (one wrap of the 32-bit millisecond counter less
the deadline, about 49.7 days); within that range `millis() - start`, which
the program computes modulo 2^32, tells the time waited. -/
abbrev Wait := Fin 4294962296

/-- What the socket reports at one poll (one iteration of a receive loop).
`closed`: `client.connected()` is false.
`idle dt`: connected, `client.available()` is zero; when `millis()` is read
after the `delay(1)` that follows, `dt` milliseconds have passed since the
clock was last read (the delay itself and whatever time reads, writes and
other tasks took).
`data k`: connected, `client.available()` is non-zero; a `client.read` of
`size` bytes returns `min k size` bytes (fewer if the wire holds fewer), so
between 0 and `size` bytes; the error return of `read` is not modelled. -/
inductive Poll where
  | closed
  | idle (dt : Wait)
  | data (k : Nat)
deriving DecidableEq

/-- Which receive loop issued a socket read: the header loop (into `header`)
or the payload loop (into `netbuf`). -/
inductive Phase where
  | header
  | payload
deriving DecidableEq

/-- Calls made by `speakerTask`, in program order.  Socket reads and sink writes
are stamped with the value `is_playing_tts` had when they were issued.
`read playing ph off size bytes` is `client.read(buf + off, size)` returning
`bytes`; `write playing bytes` is `i2s_write(port, netbuf, bytes.length, ..)`;
`flush` is `i2s_zero_dma_buffer`; `stop` is `client.stop()`;
`signal b` is the store `is_playing_tts = b`. -/
inductive Ev where
  | signal (b : Bool)
  | read (playing : Bool) (ph : Phase) (off size : Nat) (bytes : List Byte)
  | write (playing : Bool) (bytes : List Byte)
  | flush
  | stop
deriving DecidableEq

/-- An accepted connection: its poll schedule and the bytes it will yield. -/
structure Conn where
  env : Nat → Nat → Poll
  wire : List Byte

/-- State of `speakerTask` together with its surroundings. -/
structure Sys where
  env : Nat → Nat → Poll
  pos : Nat
  rd : Nat
  wire : List Byte
  millis : Nat
  is_playing_tts : Bool
  log : List Ev

/-- The report of the socket at the current poll. -/
def Sys.poll (s : Sys) : Poll := s.env s.pos s.rd

/-- Value of `client.connected()`. -/
def Sys.connected (s : Sys) : Bool :=
  match s.poll with
  | Poll.closed => false
  | _ => true

/-- Truth value of `client.available()`. -/
def Sys.available (s : Sys) : Bool :=
  match s.poll with
  | Poll.data _ => true
  | _ => false

/-- Number of bytes a `client.read` of `size` bytes is granted now. -/
def Sys.grant (s : Sys) (size : Nat) : Nat :=
  match s.poll with
  | Poll.data k => min k size
  | _ => 0

/-- The call `client.read(buf + off, size)`: returns the bytes stored at
`buf[off ..]` and consumes the poll. -/
def Sys.read (s : Sys) (ph : Phase) (off size : Nat) : List Byte × Sys :=
  let bs := s.wire.take (s.grant size)
  (bs, { s with
          pos := s.pos + 1
          rd := s.rd + bs.length
          wire := s.wire.drop (s.grant size)
          log := s.log ++ [Ev.read s.is_playing_tts ph off size bs] })

/-- The call `delay(1)` of an empty poll; afterwards `millis()` has advanced
by the `dt` of the poll, modulo 2^32. -/
def Sys.delay (s : Sys) : Sys :=
  match s.poll with
  | Poll.idle dt => { s with pos := s.pos + 1, millis := (s.millis + dt.val) % U32 }
  | _ => { s with pos := s.pos + 1 }

/-- The expression `millis() - start` on `unsigned long`. -/
def elapsed (now start : Nat) : Nat := (now + U32 - start % U32) % U32

/-- The call `i2s_write(SPK_I2S_PORT, netbuf, net_got, &written, portMAX_DELAY)`. -/
def Sys.i2s_write (s : Sys) (bytes : List Byte) : Sys :=
  { s with log := s.log ++ [Ev.write s.is_playing_tts bytes] }

/-- The call `i2s_zero_dma_buffer(SPK_I2S_PORT)`. -/
def Sys.i2s_zero_dma_buffer (s : Sys) : Sys :=
  { s with log := s.log ++ [Ev.flush] }

/-- The call `client.stop()`. -/
def Sys.stop (s : Sys) : Sys :=
  { s with log := s.log ++ [Ev.stop] }

/-- The store `is_playing_tts = b`. -/
def Sys.setPlaying (s : Sys) (b : Bool) : Sys :=
  { s with is_playing_tts := b, log := s.log ++ [Ev.signal b] }

/-- The client returned by `ttsServer.available()` becomes the current one. -/
def Sys.accept (s : Sys) (c : Conn) : Sys :=
  { s with env := c.env, pos := 0, rd := 0, wire := c.wire }

/-- The two receive loops of `speakerTask` (lines 66-73 with
`target = 16`, buffer `header`; lines 95-102 with `target = to_read`, buffer
`netbuf`):

    while (got < target && client.connected()) {
      if (client.available()) got += client.read(buf + got, target - got);
      else { delay(1); if (millis() - start > 5000) break; }
    }

`got` is the list of bytes stored so far at `buf[0 .. got)`. -/
def recvLoop : Nat → Phase → Nat → Nat → List Byte → Sys → Option (List Byte) × Sys
  | 0, _, _, _, _, s => (none, s)
  | fuel + 1, ph, target, start, got, s =>
    if got.length < target ∧ s.connected = true then
      if s.available = true then
        let r := s.read ph got.length (target - got.length)
        recvLoop fuel ph target start (got ++ r.1) r.2
      else
        let s1 := s.delay
        if elapsed s1.millis start > DEADLINE then (some got, s1)
        else recvLoop fuel ph target start got s1
    else (some got, s)

/-- The length field: `(uint32_t)header[12] | header[13]<<8 | header[14]<<16
| header[15]<<24`, each operand converted to `uint32_t` first. -/
def data_len (header : List Byte) : Nat :=
  ((header.getD 12 0).val ||| (((header.getD 13 0).val <<< 8) % U32)
    ||| (((header.getD 14 0).val <<< 16) % U32)
    ||| (((header.getD 15 0).val <<< 24) % U32)) % U32

/-- The chunk target `(remaining > sizeof(netbuf)) ? sizeof(netbuf) : remaining`. -/
def to_read (remaining : Nat) : Nat :=
  if remaining > NETBUF then NETBUF else remaining

/-- The statement `remaining -= net_got` on `size_t`. -/
def subSize (remaining net_got : Nat) : Nat :=
  (remaining + U32 - net_got % U32) % U32

/-- The payload loop (lines 90-109); returns the final `remaining`. -/
def playLoop : Nat → Nat → Sys → Option Nat × Sys
  | 0, _, s => (none, s)
  | fuel + 1, remaining, s =>
    if remaining > 0 ∧ s.connected = true then
      match recvLoop fuel Phase.payload (to_read remaining) s.millis [] s with
      | (none, s1) => (none, s1)
      | (some net_got, s1) =>
        if net_got.length = 0 then (some remaining, s1)
        else playLoop fuel (subSize remaining net_got.length) (s1.i2s_write net_got)
    else (some remaining, s)

/-- How one pass through the body of `while(client.connected())` ends:
by one of its `break`s, or by reaching the end of the body. -/
inductive Exit where
  | brk
  | next
deriving DecidableEq

/-- The body of `while(client.connected())` (lines 63-111): read a header,
check it, play the payload, silence the sink. -/
def frameBody (fuel : Nat) (s : Sys) : Option Exit × Sys :=
  match recvLoop fuel Phase.header HEADER s.millis [] s with
  | (none, s1) => (none, s1)
  | (some header, s1) =>
    if header.length < HEADER then (some Exit.brk, s1)
    else if header.getD 0 0 ≠ MAGIC then (some Exit.brk, s1)
    else
      match playLoop fuel (data_len header) s1 with
      | (none, s2) => (none, s2)
      | (some _, s2) => (some Exit.next, s2.i2s_zero_dma_buffer)

/-- The loop `while(client.connected()) { ... }` (lines 62-112). -/
def sessionLoop : Nat → Sys → Option Unit × Sys
  | 0, s => (none, s)
  | fuel + 1, s =>
    if s.connected = true then
      match frameBody fuel s with
      | (none, s1) => (none, s1)
      | (some Exit.brk, s1) => (some (), s1)
      | (some Exit.next, s1) => sessionLoop fuel s1
    else (some (), s)

/-- The branch `if (client) { ... }` (lines 58-116) for an accepted client. -/
def serve (fuel : Nat) (c : Conn) (s : Sys) : Option Unit × Sys :=
  match sessionLoop fuel ((s.accept c).setPlaying true) with
  | (none, s1) => (none, s1)
  | (some _, s1) => (some (), (s1.stop).setPlaying false)

/-- One pass through the body of `while (true)` (lines 57-117):
`incoming` is the outcome of `ttsServer.available()`, `some c` when the
returned client tests true.  `vTaskDelay(20)` has no effect on the state
modelled here. -/
def acceptorStep (fuel : Nat) (incoming : Option Conn) (s : Sys) : Option Unit × Sys :=
  match incoming with
  | none => (some (), s)
  | some c => serve fuel c s

/-- Finitely many passes through `while (true)`, one per element of
`arrivals`. -/
def speakerTask (fuel : Nat) : List (Option Conn) → Sys → Option Unit × Sys
  | [], s => (some (), s)
  | a :: rest, s =>
    match acceptorStep fuel a s with
    | (none, s1) => (none, s1)
    | (some _, s1) => speakerTask fuel rest s1

/-- Bytes handed to the sink by the events of a log, in order. -/
def sinkBytes : List Ev → List Byte
  | [] => []
  | Ev.write _ bs :: es => bs ++ sinkBytes es
  | _ :: es => sinkBytes es

/-- Bytes returned by the socket reads of a log, in order. -/
def readBytes : List Ev → List Byte
  | [] => []
  | Ev.read _ _ _ _ bs :: es => bs ++ readBytes es
  | _ :: es => readBytes es

/-- What a call made inside a session must look like when `is_playing_tts`
holds `flag`: a socket read into `header` ends exactly at its 16 bytes, a
socket read into `netbuf` stays within its 1024 bytes, both ask for at least
one byte and return no more than asked; a sink write takes between 1 and 1024
bytes; each is stamped with `flag`.  Stores to the signal and `client.stop()`
do not occur inside a session. -/
def Ev.sane (flag : Bool) : Ev → Prop
  | Ev.read p Phase.header off size bs =>
      p = flag ∧ off + size = HEADER ∧ 1 ≤ size ∧ bs.length ≤ size
  | Ev.read p Phase.payload off size bs =>
      p = flag ∧ off + size ≤ NETBUF ∧ 1 ≤ size ∧ bs.length ≤ size
  | Ev.write p bs => p = flag ∧ 1 ≤ bs.length ∧ bs.length ≤ NETBUF
  | Ev.flush => True
  | Ev.signal _ => False
  | Ev.stop => False

/-- The event is a socket read issued by the header loop. -/
def Ev.isHeaderRead : Ev → Prop
  | Ev.read _ Phase.header _ _ _ => True
  | _ => False

/-- The event is a sink write. -/
def Ev.isWrite : Ev → Prop
  | Ev.write _ _ => True
  | _ => False

/-- The socket reads of one chunk fill towards `target`, the first at
offset `n`: each is issued by loop `ph` at the offset reached so far, asks for
the bytes still missing from `target`, and the next one starts where the bytes
returned by this one end. -/
def chunkReads (ph : Phase) (target : Nat) : Nat → List Ev → Prop
  | _, [] => True
  | n, Ev.read _ ph1 off size bs :: es =>
      ph1 = ph ∧ off = n ∧ n < target ∧ size = target - n ∧ bs.length ≤ size ∧
        chunkReads ph target (n + bs.length) es
  | _, _ :: _ => False

/-- `Arrives row i a`: polling the socket from poll `i` of `row` on, having
already waited `a` milliseconds, data turns up (a read then returns at least
one byte) before the waiting exceeds the deadline, the connection staying up
meanwhile. -/
inductive Arrives (row : Nat → Poll) : Nat → Nat → Prop where
  | now (i a k : Nat) : row i = Poll.data k → 1 ≤ k → Arrives row i a
  | wait (i a : Nat) (dt : Wait) : row i = Poll.idle dt → a + dt.val ≤ DEADLINE →
      Arrives row (i + 1) (a + dt.val) → Arrives row i a

/-- `Steady env lo hi`: while the number of bytes taken from the socket is
at least `lo` and below `hi`, the connection is up, every read returns at
least one byte, and from any poll on data turns up within the deadline. -/
def Steady (env : Nat → Nat → Poll) (lo hi : Nat) : Prop :=
  ∀ n, lo ≤ n → n < hi → ∀ i, Arrives (fun j => env j n) i 0

/-- `Fills env pos rd a need`: a receive loop that still misses `need` bytes
of its target, stands at poll `pos` with `rd` bytes taken from the socket and
has waited `a` milliseconds since it started, gets all of them: the connection
stays up, polls may find nothing as long as the waiting since the start of
the loop stays within the deadline, and every read returns at least one byte.
The header loop asks each time for all the bytes still missing, so a read at
a poll reporting `data k` takes `min k need` of them. -/
inductive Fills (env : Nat → Nat → Poll) : Nat → Nat → Nat → Nat → Prop where
  | done (pos rd a : Nat) : Fills env pos rd a 0
  | data (pos rd a need k : Nat) : 0 < need → env pos rd = Poll.data k → 1 ≤ k →
      Fills env (pos + 1) (rd + min k need) a (need - min k need) →
      Fills env pos rd a need
  | wait (pos rd a need : Nat) (dt : Wait) : 0 < need → env pos rd = Poll.idle dt →
      a + dt.val ≤ DEADLINE → Fills env (pos + 1) rd (a + dt.val) need →
      Fills env pos rd a need

/-- `Quiet env n`: from poll `n` on the socket never has a byte available:
each poll reports the connection closed, or finds nothing and lets at least
one millisecond pass. -/
def Quiet (env : Nat → Nat → Poll) (n : Nat) : Prop :=
  ∀ i, n ≤ i → ∀ r, env i r = Poll.closed ∨ ∃ dt, env i r = Poll.idle dt ∧ 1 ≤ dt.val

/-- Modelled from the spec: `is_playing_tts` is declared `extern` in
`speaker.cpp` and defined in a file not at hand; the spec has the signal
false outside sessions, so the state in which `speakerTask` starts has it false.
The clock reading at that moment is `now`; no client yet, nothing logged. -/
def boot (now : Nat) : Sys :=
  { env := fun _ _ => Poll.closed, pos := 0, rd := 0, wire := [], millis := now,
    is_playing_tts := false, log := [] }

/-- Sample connection: a header announcing four payload bytes arrives, then
nothing for more than five seconds while the connection stays up, then
sixteen further bytes, and the peer closes. -/
def stallConn : Conn :=
  { env := fun pos _ => if pos = 0 then Poll.data 16 else if pos = 1 then Poll.idle 5001
                        else if pos = 2 then Poll.data 16 else Poll.closed,
    wire := [80, 0, 0, 0, 0, 0, 0, 0, 0, 0, 0, 0, 4, 0, 0, 0,
             80, 0, 0, 0, 0, 0, 0, 0, 0, 0, 0, 0, 0, 0, 0, 0] }

/-- Sample connection: sixteen bytes that do not start with the magic tag,
followed by more data. -/
def junkConn : Conn :=
  { env := fun _ _ => Poll.data 16,
    wire := [81, 0, 0, 0, 0, 0, 0, 0, 0, 0, 0, 0, 4, 0, 0, 0, 1, 2, 3, 4] }

/-- Sample header: magic tag, reserved bytes, length field `0x01020304`. -/
def demoHeader : List Byte := [80, 9, 9, 9, 9, 9, 9, 9, 9, 9, 9, 9, 4, 3, 2, 1]

/-- Sample connection: the header arrives at once; the four payload bytes
come in two pieces with a three-second pause before each; the peer closes
after the last byte has been taken. -/
def pacedConn : Conn :=
  { env := fun i n => if n < 16 then Poll.data 16
                      else if n < 20 then (if i % 2 = 0 then Poll.data 3 else Poll.idle 3000)
                      else Poll.closed,
    wire := [80, 0, 0, 0, 0, 0, 0, 0, 0, 0, 0, 0, 4, 0, 0, 0, 21, 22, 23, 24] }

/-- Sample connection: a frame of two payload bytes, then a frame of three;
every other poll finds nothing and lasts 20 ms, the others find up to five
bytes, so both headers and both payloads are waited for and come in pieces;
the peer closes after the last byte. -/
def slowFrames : Conn :=
  { env := fun i n => if n < 37 then (if i % 2 = 0 then Poll.idle 20 else Poll.data 5)
                      else Poll.closed,
    wire := [80, 0, 0, 0, 0, 0, 0, 0, 0, 0, 0, 0, 2, 0, 0, 0, 11, 12,
             80, 0, 0, 0, 0, 0, 0, 0, 0, 0, 0, 0, 3, 0, 0, 0, 31, 32, 33] }

/-- Sample connection: a frame of two payload bytes, then sixteen bytes that
do not start with the magic tag, then more data; every other poll finds
nothing and lasts 20 ms, the others find up to five bytes. -/
def slowJunk : Conn :=
  { env := fun i _ => if i % 2 = 0 then Poll.idle 20 else Poll.data 5,
    wire := [80, 0, 0, 0, 0, 0, 0, 0, 0, 0, 0, 0, 2, 0, 0, 0, 11, 12,
             0, 0, 0, 0, 0, 0, 0, 0, 0, 0, 0, 0, 3, 0, 0, 0, 31, 32, 33] }

/-- Sample connection: a header announcing four payload bytes and two of
them arrive, then the sender goes silent for good, the connection staying
up, each empty poll taking one second. -/
def lullConn : Conn :=
  { env := fun i _ => if i < 2 then Poll.data 16 else Poll.idle 1000,
    wire := [80, 0, 0, 0, 0, 0, 0, 0, 0, 0, 0, 0, 4, 0, 0, 0, 21, 22] }

/-! ## Arithmetic of the header length field and of the counters -/

theorem or_shift_eq_add (a b i : Nat) (h : a < 2 ^ i) : a ||| (b <<< i) = a + b * 2 ^ i := by
  rw [Nat.shiftLeft_eq, Nat.lor_comm, Nat.mul_comm b, ← Nat.mul_add_lt_is_or h]
  omega

theorem data_len_eq (h : List Byte) :
    data_len h = (h.getD 12 0).val + 256 * (h.getD 13 0).val + 65536 * (h.getD 14 0).val
      + 16777216 * (h.getD 15 0).val := by
  have h12 := (h.getD 12 0).isLt
  have h13 := (h.getD 13 0).isLt
  have h14 := (h.getD 14 0).isLt
  have h15 := (h.getD 15 0).isLt
  unfold data_len U32
  generalize (h.getD 12 0).val = a at *
  generalize (h.getD 13 0).val = b at *
  generalize (h.getD 14 0).val = c at *
  generalize (h.getD 15 0).val = d at *
  have e13 : (b <<< 8) % 4294967296 = b <<< 8 := by
    rw [Nat.shiftLeft_eq]; omega
  have e14 : (c <<< 16) % 4294967296 = c <<< 16 := by
    rw [Nat.shiftLeft_eq]; omega
  have e15 : (d <<< 24) % 4294967296 = d <<< 24 := by
    rw [Nat.shiftLeft_eq]; omega
  rw [e13, e14, e15]
  rw [or_shift_eq_add a b 8 (by omega)]
  rw [or_shift_eq_add _ c 16 (by omega)]
  rw [or_shift_eq_add _ d 24 (by omega)]
  omega

theorem data_len_lt (h : List Byte) : data_len h < U32 := by
  unfold data_len U32
  exact Nat.mod_lt _ (by decide)

theorem to_read_eq_min (r : Nat) : to_read r = min r NETBUF := by
  unfold to_read NETBUF
  split <;> omega

theorem subSize_eq (r n : Nat) (hn : n ≤ r) (hr : r < U32) : subSize r n = r - n := by
  unfold subSize U32 at *
  have : n % 4294967296 = n := Nat.mod_eq_of_lt (by omega)
  rw [this]
  omega

/-! ## Bookkeeping on logs -/

@[simp] theorem readBytes_nil : readBytes [] = [] := rfl

@[simp] theorem sinkBytes_nil : sinkBytes [] = [] := rfl

@[simp] theorem readBytes_append (a b : List Ev) :
    readBytes (a ++ b) = readBytes a ++ readBytes b := by
  induction a with
  | nil => rfl
  | cons e es ih => cases e <;> simp [readBytes, ih]

@[simp] theorem sinkBytes_append (a b : List Ev) :
    sinkBytes (a ++ b) = sinkBytes a ++ sinkBytes b := by
  induction a with
  | nil => rfl
  | cons e es ih => cases e <;> simp [sinkBytes, ih]

/-! ## Field lemmas for the library calls -/

@[simp] theorem delay_env (s : Sys) : s.delay.env = s.env := by
  unfold Sys.delay; split <;> rfl

@[simp] theorem delay_flag (s : Sys) : s.delay.is_playing_tts = s.is_playing_tts := by
  unfold Sys.delay; split <;> rfl

@[simp] theorem delay_pos (s : Sys) : s.delay.pos = s.pos + 1 := by
  unfold Sys.delay; split <;> rfl

@[simp] theorem delay_log (s : Sys) : s.delay.log = s.log := by
  unfold Sys.delay; split <;> rfl

@[simp] theorem delay_wire (s : Sys) : s.delay.wire = s.wire := by
  unfold Sys.delay; split <;> rfl

@[simp] theorem delay_rd (s : Sys) : s.delay.rd = s.rd := by
  unfold Sys.delay; split <;> rfl

theorem delay_millis (s : Sys) (dt : Wait) (h : s.poll = Poll.idle dt) :
    s.delay.millis = (s.millis + dt.val) % U32 := by
  unfold Sys.delay; rw [h]

@[simp] theorem read_env (s : Sys) (ph : Phase) (off size : Nat) :
    (s.read ph off size).2.env = s.env := rfl

@[simp] theorem read_flag (s : Sys) (ph : Phase) (off size : Nat) :
    (s.read ph off size).2.is_playing_tts = s.is_playing_tts := rfl

@[simp] theorem read_pos (s : Sys) (ph : Phase) (off size : Nat) :
    (s.read ph off size).2.pos = s.pos + 1 := rfl

@[simp] theorem read_millis (s : Sys) (ph : Phase) (off size : Nat) :
    (s.read ph off size).2.millis = s.millis := rfl

@[simp] theorem read_log (s : Sys) (ph : Phase) (off size : Nat) :
    (s.read ph off size).2.log
      = s.log ++ [Ev.read s.is_playing_tts ph off size (s.read ph off size).1] := rfl

@[simp] theorem read_rd (s : Sys) (ph : Phase) (off size : Nat) :
    (s.read ph off size).2.rd = s.rd + (s.read ph off size).1.length := rfl

theorem read_wire (s : Sys) (ph : Phase) (off size : Nat) :
    (s.read ph off size).1 ++ (s.read ph off size).2.wire = s.wire := by
  simp [Sys.read]

theorem read_length_le (s : Sys) (ph : Phase) (off size : Nat) :
    (s.read ph off size).1.length ≤ size := by
  simp only [Sys.read, List.length_take, Sys.grant]
  split <;> omega

/-! ## Unfolding of the receive loops -/

theorem recvLoop_zero (ph : Phase) (target start : Nat) (got : List Byte) (s : Sys) :
    recvLoop 0 ph target start got s = (none, s) := rfl

theorem recvLoop_done (fuel : Nat) (ph : Phase) (target start : Nat) (got : List Byte)
    (s : Sys) (h : ¬ (got.length < target ∧ s.connected = true)) :
    recvLoop (fuel + 1) ph target start got s = (some got, s) := by
  rw [recvLoop, if_neg h]

theorem recvLoop_read (fuel : Nat) (ph : Phase) (target start : Nat) (got : List Byte)
    (s : Sys) (h : got.length < target ∧ s.connected = true) (ha : s.available = true) :
    recvLoop (fuel + 1) ph target start got s
      = recvLoop fuel ph target start (got ++ (s.read ph got.length (target - got.length)).1)
          (s.read ph got.length (target - got.length)).2 := by
  rw [recvLoop, if_pos h, if_pos ha]

theorem recvLoop_late (fuel : Nat) (ph : Phase) (target start : Nat) (got : List Byte)
    (s : Sys) (h : got.length < target ∧ s.connected = true) (ha : ¬ s.available = true)
    (ht : elapsed s.delay.millis start > DEADLINE) :
    recvLoop (fuel + 1) ph target start got s = (some got, s.delay) := by
  rw [recvLoop, if_pos h, if_neg ha]
  simp only [if_pos ht]

theorem recvLoop_wait (fuel : Nat) (ph : Phase) (target start : Nat) (got : List Byte)
    (s : Sys) (h : got.length < target ∧ s.connected = true) (ha : ¬ s.available = true)
    (ht : ¬ elapsed s.delay.millis start > DEADLINE) :
    recvLoop (fuel + 1) ph target start got s = recvLoop fuel ph target start got s.delay := by
  rw [recvLoop, if_pos h, if_neg ha]
  simp only [if_neg ht]

/-! ## What a receive loop does, for every amount of fuel -/

theorem recvLoop_spec (fuel : Nat) (ph : Phase) (target start : Nat) :
    ∀ (got : List Byte) (s : Sys), got.length ≤ target →
      (recvLoop fuel ph target start got s).2.env = s.env ∧
      (recvLoop fuel ph target start got s).2.is_playing_tts = s.is_playing_tts ∧
      s.pos ≤ (recvLoop fuel ph target start got s).2.pos ∧
      ∃ evs, (recvLoop fuel ph target start got s).2.log = s.log ++ evs ∧
        (∀ e ∈ evs, ∃ off size bs, e = Ev.read s.is_playing_tts ph off size bs ∧
            off + size = target ∧ 1 ≤ size ∧ bs.length ≤ size) ∧
        readBytes evs ++ (recvLoop fuel ph target start got s).2.wire = s.wire ∧
        (recvLoop fuel ph target start got s).2.rd = s.rd + (readBytes evs).length ∧
        got.length + (readBytes evs).length ≤ target ∧
        (∀ g, (recvLoop fuel ph target start got s).1 = some g → g = got ++ readBytes evs) := by
  induction fuel with
  | zero =>
    intro got s hg
    refine ⟨rfl, rfl, le_refl _, [], ?_⟩
    simp [recvLoop]
    exact hg
  | succ fuel ih =>
    intro got s hg
    by_cases hc : got.length < target ∧ s.connected = true
    · by_cases ha : s.available = true
      · rw [recvLoop_read fuel ph target start got s hc ha]
        have hlen := read_length_le s ph got.length (target - got.length)
        have hg1 : (got ++ (s.read ph got.length (target - got.length)).1).length ≤ target := by
          rw [List.length_append]; omega
        obtain ⟨h1, h2, h3, evs, h4, h5, h6, h7, h8, h9⟩ :=
          ih (got ++ (s.read ph got.length (target - got.length)).1)
            (s.read ph got.length (target - got.length)).2 hg1
        refine ⟨h1, h2, ?_, Ev.read s.is_playing_tts ph got.length (target - got.length)
          (s.read ph got.length (target - got.length)).1 :: evs, ?_, ?_, ?_, ?_, ?_, ?_⟩
        · rw [read_pos] at h3; omega
        · rw [h4]; simp
        · intro e he
          rcases List.mem_cons.1 he with rfl | he
          · exact ⟨_, _, _, rfl, by omega, by omega, hlen⟩
          · exact h5 e he
        · simp only [readBytes, List.append_assoc]
          rw [h6]
          exact read_wire s ph _ _
        · rw [h7]
          simp only [readBytes, List.length_append, read_rd]
          omega
        · simp only [readBytes, List.length_append]
          rw [List.length_append] at h8
          omega
        · intro g hgr
          rw [h9 g hgr]
          simp [readBytes]
      · by_cases ht : elapsed s.delay.millis start > DEADLINE
        · rw [recvLoop_late fuel ph target start got s hc ha ht]
          refine ⟨by simp, by simp, by simp, [], by simp, by simp, by simp, by simp, by simpa using hg, ?_⟩
          intro g hgr; simpa using hgr.symm
        · rw [recvLoop_wait fuel ph target start got s hc ha ht]
          obtain ⟨h1, h2, h3, evs, h4, h5, h6, h7, h8, h9⟩ := ih got s.delay hg
          rw [delay_flag] at h5
          exact ⟨by simpa using h1, by simpa using h2, by rw [delay_pos] at h3; omega, evs,
            by simpa using h4, h5, by simpa using h6, by simpa using h7, h8, h9⟩
    · rw [recvLoop_done fuel ph target start got s hc]
      refine ⟨rfl, rfl, le_refl _, [], by simp, by simp, by simp, by simp, by simpa using hg, ?_⟩
      intro g hgr; simpa using hgr.symm

/-! ## Field lemmas for the sink and signal calls -/

@[simp] theorem write_env (s : Sys) (b : List Byte) : (s.i2s_write b).env = s.env := rfl
@[simp] theorem write_flag (s : Sys) (b : List Byte) :
    (s.i2s_write b).is_playing_tts = s.is_playing_tts := rfl
@[simp] theorem write_pos (s : Sys) (b : List Byte) : (s.i2s_write b).pos = s.pos := rfl
@[simp] theorem write_rd (s : Sys) (b : List Byte) : (s.i2s_write b).rd = s.rd := rfl
@[simp] theorem write_wire (s : Sys) (b : List Byte) : (s.i2s_write b).wire = s.wire := rfl
@[simp] theorem write_millis (s : Sys) (b : List Byte) : (s.i2s_write b).millis = s.millis := rfl
@[simp] theorem write_log (s : Sys) (b : List Byte) :
    (s.i2s_write b).log = s.log ++ [Ev.write s.is_playing_tts b] := rfl
@[simp] theorem write_connected (s : Sys) (b : List Byte) :
    (s.i2s_write b).connected = s.connected := rfl

@[simp] theorem flush_env (s : Sys) : s.i2s_zero_dma_buffer.env = s.env := rfl
@[simp] theorem flush_flag (s : Sys) :
    s.i2s_zero_dma_buffer.is_playing_tts = s.is_playing_tts := rfl
@[simp] theorem flush_pos (s : Sys) : s.i2s_zero_dma_buffer.pos = s.pos := rfl
@[simp] theorem flush_rd (s : Sys) : s.i2s_zero_dma_buffer.rd = s.rd := rfl
@[simp] theorem flush_wire (s : Sys) : s.i2s_zero_dma_buffer.wire = s.wire := rfl
@[simp] theorem flush_millis (s : Sys) : s.i2s_zero_dma_buffer.millis = s.millis := rfl
@[simp] theorem flush_log (s : Sys) : s.i2s_zero_dma_buffer.log = s.log ++ [Ev.flush] := rfl
@[simp] theorem flush_connected (s : Sys) : s.i2s_zero_dma_buffer.connected = s.connected := rfl

/-! ## Unfolding of the payload loop -/

theorem playLoop_zero (remaining : Nat) (s : Sys) : playLoop 0 remaining s = (none, s) := rfl

theorem playLoop_done (fuel remaining : Nat) (s : Sys)
    (h : ¬ (remaining > 0 ∧ s.connected = true)) :
    playLoop (fuel + 1) remaining s = (some remaining, s) := by
  rw [playLoop, if_neg h]

theorem playLoop_starved (fuel remaining : Nat) (s s1 : Sys)
    (h : remaining > 0 ∧ s.connected = true)
    (hr : recvLoop fuel Phase.payload (to_read remaining) s.millis [] s = (none, s1)) :
    playLoop (fuel + 1) remaining s = (none, s1) := by
  rw [playLoop, if_pos h, hr]

theorem playLoop_stall (fuel remaining : Nat) (s s1 : Sys) (g : List Byte)
    (h : remaining > 0 ∧ s.connected = true)
    (hr : recvLoop fuel Phase.payload (to_read remaining) s.millis [] s = (some g, s1))
    (hg : g.length = 0) :
    playLoop (fuel + 1) remaining s = (some remaining, s1) := by
  rw [playLoop, if_pos h, hr]
  simp only [if_pos hg]

theorem playLoop_chunk (fuel remaining : Nat) (s s1 : Sys) (g : List Byte)
    (h : remaining > 0 ∧ s.connected = true)
    (hr : recvLoop fuel Phase.payload (to_read remaining) s.millis [] s = (some g, s1))
    (hg : ¬ g.length = 0) :
    playLoop (fuel + 1) remaining s
      = playLoop fuel (subSize remaining g.length) (s1.i2s_write g) := by
  rw [playLoop, if_pos h, hr]
  simp only [if_neg hg]

theorem sinkBytes_of_reads (evs : List Ev)
    (h : ∀ e ∈ evs, ∃ p ph off size bs, e = Ev.read p ph off size bs) : sinkBytes evs = [] := by
  induction evs with
  | nil => rfl
  | cons e es ih =>
    obtain ⟨p, ph, off, size, bs, rfl⟩ := h _ (List.mem_cons_self _ _)
    simp only [sinkBytes]
    exact ih (fun e he => h e (List.mem_cons_of_mem _ he))

theorem to_read_le (r : Nat) : to_read r ≤ r ∧ to_read r ≤ NETBUF := by
  rw [to_read_eq_min]; omega

theorem to_read_pos (r : Nat) (h : 0 < r) : 1 ≤ to_read r := by
  rw [to_read_eq_min]; unfold NETBUF; omega

/-! ## What the payload loop does, for every amount of fuel -/

theorem playLoop_spec (fuel : Nat) :
    ∀ (remaining : Nat) (s : Sys), remaining < U32 →
      (playLoop fuel remaining s).2.env = s.env ∧
      (playLoop fuel remaining s).2.is_playing_tts = s.is_playing_tts ∧
      s.pos ≤ (playLoop fuel remaining s).2.pos ∧
      ∃ evs, (playLoop fuel remaining s).2.log = s.log ++ evs ∧
        (∀ e ∈ evs, e.sane s.is_playing_tts ∧ ¬ e.isHeaderRead ∧ e ≠ Ev.flush) ∧
        readBytes evs ++ (playLoop fuel remaining s).2.wire = s.wire ∧
        (playLoop fuel remaining s).2.rd = s.rd + (readBytes evs).length ∧
        sinkBytes evs <+: readBytes evs ∧
        (sinkBytes evs).length ≤ remaining ∧
        (readBytes evs).length ≤ remaining ∧
        (∀ rem, (playLoop fuel remaining s).1 = some rem →
          rem + (sinkBytes evs).length = remaining ∧ sinkBytes evs = readBytes evs) := by
  induction fuel with
  | zero =>
    intro remaining s _
    refine ⟨rfl, rfl, le_refl _, [], by simp [playLoop], by simp, by simp [playLoop],
      by simp [playLoop], by simp, by simp, by simp, ?_⟩
    intro rem h; simp [playLoop] at h
  | succ fuel ih =>
    intro remaining s hlt
    by_cases hc : remaining > 0 ∧ s.connected = true
    · obtain ⟨r1, r2, r3, evs, r4, r5, r6, r7, r8, r9⟩ :=
        recvLoop_spec fuel Phase.payload (to_read remaining) s.millis [] s (Nat.zero_le _)
      have hsane : ∀ e ∈ evs, e.sane s.is_playing_tts ∧ ¬ e.isHeaderRead ∧ e ≠ Ev.flush := by
        intro e he
        obtain ⟨off, size, bs, rfl, h1, h2, h3⟩ := r5 e he
        have := (to_read_le remaining).2
        refine ⟨⟨rfl, by omega, h2, h3⟩, by simp [Ev.isHeaderRead], by simp⟩
      have hrb : (readBytes evs).length ≤ to_read remaining := by simpa using r8
      have htr := to_read_le remaining
      have hsink : sinkBytes evs = [] :=
        sinkBytes_of_reads evs (fun e he => by
          obtain ⟨off, size, bs, h, -⟩ := r5 e he
          exact ⟨_, _, _, _, _, h⟩)
      cases hres : recvLoop fuel Phase.payload (to_read remaining) s.millis [] s with
      | mk res s1 =>
        rw [hres] at r1 r2 r3 r4 r6 r7 r9
        simp only at r1 r2 r3 r4 r6 r7 r9
        cases res with
        | none =>
          rw [playLoop_starved fuel remaining s s1 hc hres]
          refine ⟨r1, r2, r3, evs, r4, hsane, r6, r7, ?_, ?_, by omega, ?_⟩
          · rw [hsink]; exact List.nil_prefix
          · rw [hsink]; simp
          · intro rem h; simp at h
        | some g =>
          have hg : g = readBytes evs := by simpa using r9 g rfl
          by_cases hz : g.length = 0
          · rw [playLoop_stall fuel remaining s s1 g hc hres hz]
            have hnil : readBytes evs = [] := by
              rw [← hg]; exact List.length_eq_zero.1 hz
            refine ⟨r1, r2, r3, evs, r4, hsane, r6, r7, ?_, ?_, by omega, ?_⟩
            · rw [hsink]; exact List.nil_prefix
            · rw [hsink]; simp
            · intro rem h
              simp only [Option.some.injEq] at h
              rw [hsink, hnil]; simp [h]
          · rw [playLoop_chunk fuel remaining s s1 g hc hres hz]
            have hgl : g.length ≤ remaining := by rw [hg]; omega
            have hsub : subSize remaining g.length = remaining - g.length :=
              subSize_eq _ _ hgl hlt
            rw [hsub]
            obtain ⟨p1, p2, p3, evs2, p4, p5, p6, p7, p8, p9, p10, p11⟩ :=
              ih (remaining - g.length) (s1.i2s_write g) (by omega)
            simp only [write_env, write_flag, write_pos, write_rd, write_wire, write_log]
              at p1 p2 p3 p4 p5 p6 p7
            refine ⟨p1.trans r1, p2.trans r2, by omega,
              evs ++ Ev.write s1.is_playing_tts g :: evs2, ?_, ?_, ?_, ?_, ?_, ?_, ?_, ?_⟩
            · rw [p4, r4]; simp
            · intro e he
              rcases List.mem_append.1 he with he | he
              · exact hsane e he
              · rcases List.mem_cons.1 he with rfl | he
                · refine ⟨⟨r2, by omega, ?_⟩, by simp [Ev.isHeaderRead], by simp⟩
                  rw [hg]; omega
                · rw [← r2]; exact p5 e he
            · simp only [readBytes_append, readBytes, List.append_assoc]
              rw [p6, r6]
            · rw [p7, r7]
              simp only [readBytes_append, readBytes, List.length_append]
              omega
            · simp only [sinkBytes_append, sinkBytes, readBytes_append, readBytes, hsink,
                List.nil_append]
              rw [← hg]
              exact (List.prefix_append_right_inj g).2 p8
            · simp only [sinkBytes_append, sinkBytes, hsink, List.nil_append,
                List.length_append]
              omega
            · simp only [readBytes_append, readBytes, List.length_append]
              rw [← hg]; omega
            · intro rem h
              obtain ⟨q1, q2⟩ := p11 rem h
              simp only [sinkBytes_append, sinkBytes, hsink, List.nil_append,
                List.length_append, readBytes_append, readBytes]
              refine ⟨by omega, ?_⟩
              rw [← hg, q2]
    · rw [playLoop_done fuel remaining s hc]
      refine ⟨rfl, rfl, le_refl _, [], by simp, by simp, by simp, by simp, by simp, by simp,
        by simp, ?_⟩
      intro rem h; simp at h; simp [h]

/-! ## Unfolding of the session loop and its body -/

theorem frameBody_starved (fuel : Nat) (s s1 : Sys)
    (hr : recvLoop fuel Phase.header HEADER s.millis [] s = (none, s1)) :
    frameBody fuel s = (none, s1) := by
  rw [frameBody, hr]

theorem frameBody_short (fuel : Nat) (s s1 : Sys) (h : List Byte)
    (hr : recvLoop fuel Phase.header HEADER s.millis [] s = (some h, s1))
    (hl : h.length < HEADER) :
    frameBody fuel s = (some Exit.brk, s1) := by
  rw [frameBody, hr]
  simp only [if_pos hl]

theorem frameBody_magic (fuel : Nat) (s s1 : Sys) (h : List Byte)
    (hr : recvLoop fuel Phase.header HEADER s.millis [] s = (some h, s1))
    (hl : ¬ h.length < HEADER) (hm : h.getD 0 0 ≠ MAGIC) :
    frameBody fuel s = (some Exit.brk, s1) := by
  rw [frameBody, hr]
  simp only [if_neg hl, if_pos hm]

theorem frameBody_play_starved (fuel : Nat) (s s1 s2 : Sys) (h : List Byte)
    (hr : recvLoop fuel Phase.header HEADER s.millis [] s = (some h, s1))
    (hl : ¬ h.length < HEADER) (hm : ¬ h.getD 0 0 ≠ MAGIC)
    (hp : playLoop fuel (data_len h) s1 = (none, s2)) :
    frameBody fuel s = (none, s2) := by
  rw [frameBody, hr]
  simp only [if_neg hl, if_neg hm, hp]

theorem frameBody_play (fuel : Nat) (s s1 s2 : Sys) (h : List Byte) (rem : Nat)
    (hr : recvLoop fuel Phase.header HEADER s.millis [] s = (some h, s1))
    (hl : ¬ h.length < HEADER) (hm : ¬ h.getD 0 0 ≠ MAGIC)
    (hp : playLoop fuel (data_len h) s1 = (some rem, s2)) :
    frameBody fuel s = (some Exit.next, s2.i2s_zero_dma_buffer) := by
  rw [frameBody, hr]
  simp only [if_neg hl, if_neg hm, hp]

theorem sessionLoop_zero (s : Sys) : sessionLoop 0 s = (none, s) := rfl

theorem sessionLoop_closed (fuel : Nat) (s : Sys) (h : ¬ s.connected = true) :
    sessionLoop (fuel + 1) s = (some (), s) := by
  rw [sessionLoop, if_neg h]

theorem sessionLoop_starved (fuel : Nat) (s s1 : Sys) (h : s.connected = true)
    (hf : frameBody fuel s = (none, s1)) :
    sessionLoop (fuel + 1) s = (none, s1) := by
  rw [sessionLoop, if_pos h, hf]

theorem sessionLoop_brk (fuel : Nat) (s s1 : Sys) (h : s.connected = true)
    (hf : frameBody fuel s = (some Exit.brk, s1)) :
    sessionLoop (fuel + 1) s = (some (), s1) := by
  rw [sessionLoop, if_pos h, hf]

theorem sessionLoop_next (fuel : Nat) (s s1 : Sys) (h : s.connected = true)
    (hf : frameBody fuel s = (some Exit.next, s1)) :
    sessionLoop (fuel + 1) s = sessionLoop fuel s1 := by
  rw [sessionLoop, if_pos h, hf]

/-! ## What one pass of the session loop does, for every amount of fuel -/

theorem headerRead_sane (flag : Bool) (e : Ev)
    (h : ∃ off size bs, e = Ev.read flag Phase.header off size bs ∧
            off + size = HEADER ∧ 1 ≤ size ∧ bs.length ≤ size) :
    e.sane flag ∧ e.isHeaderRead := by
  obtain ⟨off, size, bs, rfl, h1, h2, h3⟩ := h
  exact ⟨⟨rfl, h1, h2, h3⟩, trivial⟩

theorem frameBody_spec (fuel : Nat) (s : Sys) :
    (frameBody fuel s).2.env = s.env ∧
    (frameBody fuel s).2.is_playing_tts = s.is_playing_tts ∧
    s.pos ≤ (frameBody fuel s).2.pos ∧
    ∃ evs, (frameBody fuel s).2.log = s.log ++ evs ∧
      (∀ e ∈ evs, e.sane s.is_playing_tts) ∧
      readBytes evs ++ (frameBody fuel s).2.wire = s.wire ∧
      (frameBody fuel s).2.rd = s.rd + (readBytes evs).length ∧
      ((frameBody fuel s).1 = some Exit.brk →
          (∀ e ∈ evs, e.isHeaderRead) ∧ (readBytes evs).length ≤ HEADER) ∧
      ((frameBody fuel s).1 = some Exit.next →
          ∃ hv pv, evs = hv ++ pv ++ [Ev.flush] ∧ (∀ e ∈ hv, e.isHeaderRead) ∧
            (readBytes hv).length = HEADER ∧ (readBytes hv).getD 0 0 = MAGIC ∧
            (∀ e ∈ pv, ¬ e.isHeaderRead ∧ e ≠ Ev.flush) ∧
            sinkBytes pv = readBytes pv ∧
            (sinkBytes pv).length ≤ data_len (readBytes hv)) := by
  obtain ⟨r1, r2, r3, hv, r4, r5, r6, r7, r8, r9⟩ :=
    recvLoop_spec fuel Phase.header HEADER s.millis [] s (Nat.zero_le _)
  have hhv : ∀ e ∈ hv, e.sane s.is_playing_tts ∧ e.isHeaderRead :=
    fun e he => headerRead_sane _ e (r5 e he)
  have hlen : (readBytes hv).length ≤ HEADER := by simpa using r8
  cases hres : recvLoop fuel Phase.header HEADER s.millis [] s with
  | mk res s1 =>
    rw [hres] at r1 r2 r3 r4 r6 r7 r9
    simp only at r1 r2 r3 r4 r6 r7 r9
    cases res with
    | none =>
      rw [frameBody_starved fuel s s1 hres]
      exact ⟨r1, r2, r3, hv, r4, fun e he => (hhv e he).1, r6, r7,
        by intro h; simp at h, by intro h; simp at h⟩
    | some h =>
      have hh : h = readBytes hv := by simpa using r9 h rfl
      by_cases hl : h.length < HEADER
      · rw [frameBody_short fuel s s1 h hres hl]
        exact ⟨r1, r2, r3, hv, r4, fun e he => (hhv e he).1, r6, r7,
          fun _ => ⟨fun e he => (hhv e he).2, hlen⟩, by intro h; simp at h⟩
      · by_cases hm : h.getD 0 0 ≠ MAGIC
        · rw [frameBody_magic fuel s s1 h hres hl hm]
          exact ⟨r1, r2, r3, hv, r4, fun e he => (hhv e he).1, r6, r7,
            fun _ => ⟨fun e he => (hhv e he).2, hlen⟩, by intro h; simp at h⟩
        · obtain ⟨p1, p2, p3, pv, p4, p5, p6, p7, p8, p9, p10, p11⟩ :=
            playLoop_spec fuel (data_len h) s1 (data_len_lt h)
          cases hpl : playLoop fuel (data_len h) s1 with
          | mk pres s2 =>
            rw [hpl] at p1 p2 p3 p4 p6 p7 p11
            simp only at p1 p2 p3 p4 p6 p7 p11
            have hsane : ∀ e ∈ hv ++ pv, e.sane s.is_playing_tts := by
              intro e he
              rcases List.mem_append.1 he with he | he
              · exact (hhv e he).1
              · rw [← r2]; exact (p5 e he).1
            cases pres with
            | none =>
              rw [frameBody_play_starved fuel s s1 s2 h hres hl hm hpl]
              refine ⟨p1.trans r1, p2.trans r2, by simp only; omega, hv ++ pv, ?_, hsane, ?_, ?_,
                by intro h; simp at h, by intro h; simp at h⟩
              · simp only; rw [p4, r4, List.append_assoc]
              · simp only [readBytes_append, List.append_assoc]; rw [p6, r6]
              · simp only [readBytes_append, List.length_append]; rw [p7, r7]; omega
            | some rem =>
              rw [frameBody_play fuel s s1 s2 h rem hres hl hm hpl]
              refine ⟨by simpa using p1.trans r1, by simpa using p2.trans r2,
                by simp only [flush_pos]; omega, hv ++ pv ++ [Ev.flush], ?_, ?_, ?_, ?_,
                by intro h; simp at h, ?_⟩
              · simp only [flush_log]; rw [p4, r4]; simp
              · intro e he
                rcases List.mem_append.1 he with he | he
                · exact hsane e he
                · simp only [List.mem_singleton] at he
                  rw [he]; trivial
              · simp only [readBytes_append, List.append_assoc, flush_wire, readBytes,
                  List.nil_append]
                rw [p6, r6]
              · simp only [readBytes_append, List.length_append, flush_rd, readBytes,
                  List.length_nil]
                rw [p7, r7]; omega
              · intro _
                have hd : ¬ (readBytes hv).length < HEADER := by rw [← hh]; exact hl
                refine ⟨hv, pv, rfl, fun e he => (hhv e he).2, by omega, ?_, fun e he => (p5 e he).2, (p11 rem rfl).2, ?_⟩
                · rw [← hh]; exact not_not.1 hm
                · rw [← hh]; exact p9

/-! ## What the session loop does, for every amount of fuel -/

theorem sessionLoop_spec (fuel : Nat) :
    ∀ (s : Sys),
      (sessionLoop fuel s).2.env = s.env ∧
      (sessionLoop fuel s).2.is_playing_tts = s.is_playing_tts ∧
      ∃ evs, (sessionLoop fuel s).2.log = s.log ++ evs ∧
        (∀ e ∈ evs, e.sane s.is_playing_tts) ∧
        readBytes evs ++ (sessionLoop fuel s).2.wire = s.wire ∧
        ((sessionLoop fuel s).1 = some () →
          (∀ e ∈ evs, e.isHeaderRead) ∨
          ∃ a b, evs = a ++ Ev.flush :: b ∧ ∀ e ∈ b, e.isHeaderRead) := by
  induction fuel with
  | zero =>
    intro s
    exact ⟨rfl, rfl, [], by simp [sessionLoop], by simp, by simp [sessionLoop],
      by simp [sessionLoop]⟩
  | succ fuel ih =>
    intro s
    by_cases hc : s.connected = true
    · obtain ⟨f1, f2, _, evs, f4, f5, f6, _, f8, f9⟩ := frameBody_spec fuel s
      cases hres : frameBody fuel s with
      | mk res s1 =>
        rw [hres] at f1 f2 f4 f6 f8 f9
        simp only at f1 f2 f4 f6 f8 f9
        cases res with
        | none =>
          rw [sessionLoop_starved fuel s s1 hc hres]
          exact ⟨f1, f2, evs, f4, f5, f6, by intro h; simp at h⟩
        | some ex =>
          cases ex with
          | brk =>
            rw [sessionLoop_brk fuel s s1 hc hres]
            exact ⟨f1, f2, evs, f4, f5, f6, fun _ => Or.inl (f8 rfl).1⟩
          | next =>
            rw [sessionLoop_next fuel s s1 hc hres]
            obtain ⟨g1, g2, evs2, g4, g5, g6, g7⟩ := ih s1
            obtain ⟨hv, pv, hshape, -⟩ := f9 rfl
            refine ⟨g1.trans f1, g2.trans f2, evs ++ evs2, ?_, ?_, ?_, ?_⟩
            · rw [g4, f4, List.append_assoc]
            · intro e he
              rcases List.mem_append.1 he with he | he
              · exact f5 e he
              · rw [← f2]; exact g5 e he
            · simp only [readBytes_append, List.append_assoc]; rw [g6, f6]
            · intro hdone
              right
              rcases g7 hdone with hh | ⟨a, b, hab, hb⟩
              · exact ⟨hv ++ pv, evs2, by rw [hshape]; simp, hh⟩
              · exact ⟨evs ++ a, b, by rw [hab]; simp, hb⟩
    · rw [sessionLoop_closed fuel s hc]
      exact ⟨rfl, rfl, [], by simp, by simp, by simp, fun _ => Or.inl (by simp)⟩

/-! ## What serving one client does, for every amount of fuel -/

theorem serve_spec (fuel : Nat) (c : Conn) (s : Sys) :
    ∃ evs, (∀ e ∈ evs, e.sane true) ∧
      (((serve fuel c s).1 = none ∧ (serve fuel c s).2.is_playing_tts = true ∧
          (serve fuel c s).2.log = s.log ++ Ev.signal true :: evs) ∨
       ((serve fuel c s).1 = some () ∧ (serve fuel c s).2.is_playing_tts = false ∧
          (serve fuel c s).2.log = s.log ++ Ev.signal true :: (evs ++ [Ev.stop, Ev.signal false]) ∧
          readBytes evs ++ (serve fuel c s).2.wire = c.wire ∧
          ((∀ e ∈ evs, e.isHeaderRead) ∨
            ∃ a b, evs = a ++ Ev.flush :: b ∧ ∀ e ∈ b, e.isHeaderRead))) := by
  obtain ⟨g1, g2, evs, g4, g5, g6, g7⟩ := sessionLoop_spec fuel ((s.accept c).setPlaying true)
  refine ⟨evs, g5, ?_⟩
  unfold serve
  cases hres : sessionLoop fuel ((s.accept c).setPlaying true) with
  | mk res s1 =>
    rw [hres] at g1 g2 g4 g6 g7
    simp only at g1 g2 g4 g6 g7
    cases res with
    | none =>
      left
      refine ⟨rfl, g2, ?_⟩
      simp only
      rw [g4]
      simp [Sys.setPlaying, Sys.accept]
    | some u =>
      right
      refine ⟨rfl, rfl, ?_, ?_, g7 rfl⟩
      · simp only [Sys.setPlaying, Sys.stop]
        rw [g4]
        simp [Sys.setPlaying, Sys.accept]
      · simpa [Sys.setPlaying, Sys.stop, Sys.accept] using g6

/-! ## Offsets and sizes of the reads of one chunk -/

theorem recvLoop_chunkReads (fuel : Nat) (ph : Phase) (target start : Nat) :
    ∀ (got : List Byte) (s : Sys), got.length ≤ target →
      ∃ evs, (recvLoop fuel ph target start got s).2.log = s.log ++ evs ∧
        chunkReads ph target got.length evs := by
  induction fuel with
  | zero => intro got s _; exact ⟨[], by simp [recvLoop], trivial⟩
  | succ fuel ih =>
    intro got s hg
    by_cases hc : got.length < target ∧ s.connected = true
    · by_cases ha : s.available = true
      · rw [recvLoop_read fuel ph target start got s hc ha]
        have hlen := read_length_le s ph got.length (target - got.length)
        obtain ⟨evs, h1, h2⟩ := ih (got ++ (s.read ph got.length (target - got.length)).1)
            (s.read ph got.length (target - got.length)).2
            (by rw [List.length_append]; omega)
        refine ⟨Ev.read s.is_playing_tts ph got.length (target - got.length)
          (s.read ph got.length (target - got.length)).1 :: evs, ?_, ?_⟩
        · rw [h1]; simp
        · rw [List.length_append] at h2
          exact ⟨rfl, rfl, hc.1, rfl, hlen, h2⟩
      · by_cases ht : elapsed s.delay.millis start > DEADLINE
        · rw [recvLoop_late fuel ph target start got s hc ha ht]
          exact ⟨[], by simp, trivial⟩
        · rw [recvLoop_wait fuel ph target start got s hc ha ht]
          obtain ⟨evs, h1, h2⟩ := ih got s.delay hg
          exact ⟨evs, by simpa using h1, h2⟩
    · rw [recvLoop_done fuel ph target start got s hc]
      exact ⟨[], by simp, trivial⟩

/-! ## Logs of the whole task -/

theorem speakerTask_log (fuel : Nat) :
    ∀ (arrivals : List (Option Conn)) (s : Sys),
      ∃ evs, (speakerTask fuel arrivals s).2.log = s.log ++ evs ∧
        (∀ e ∈ evs, e.sane true ∨ e = Ev.signal true ∨ e = Ev.signal false ∨ e = Ev.stop) ∧
        ((speakerTask fuel arrivals s).1 = none →
          (speakerTask fuel arrivals s).2.is_playing_tts = true) ∧
        ((speakerTask fuel arrivals s).1 = some () → s.is_playing_tts = false →
          (speakerTask fuel arrivals s).2.is_playing_tts = false) := by
  intro arrivals
  induction arrivals with
  | nil =>
    intro s
    exact ⟨[], by simp [speakerTask], by simp, by simp [speakerTask],
      by simp [speakerTask]⟩
  | cons a rest ih =>
    intro s
    cases a with
    | none =>
      obtain ⟨evs, h1, h2, h3, h4⟩ := ih s
      refine ⟨evs, ?_, h2, ?_, ?_⟩ <;> simpa [speakerTask, acceptorStep]
    | some c =>
      obtain ⟨evs, hs, hcase⟩ := serve_spec fuel c s
      have hstep : acceptorStep fuel (some c) s = serve fuel c s := rfl
      cases hres : serve fuel c s with
      | mk res s1 =>
        rw [hres] at hcase
        simp only at hcase
        rcases hcase with ⟨hn, hf, hl⟩ | ⟨hn, hf, hl, -, -⟩
        · subst hn
          have : speakerTask fuel (some c :: rest) s = (none, s1) := by
            simp [speakerTask, hstep, hres]
          rw [this]
          refine ⟨Ev.signal true :: evs, hl, ?_, fun _ => hf, by intro h; simp at h⟩
          intro e he
          rcases List.mem_cons.1 he with rfl | he
          · exact Or.inr (Or.inl rfl)
          · exact Or.inl (hs e he)
        · subst hn
          have : speakerTask fuel (some c :: rest) s = speakerTask fuel rest s1 := by
            simp [speakerTask, hstep, hres]
          rw [this]
          obtain ⟨evs2, h1, h2, h3, h4⟩ := ih s1
          refine ⟨Ev.signal true :: (evs ++ [Ev.stop, Ev.signal false]) ++ evs2, ?_, ?_, h3,
            fun hd _ => h4 hd hf⟩
          · rw [h1, hl]; simp
          · intro e he
            simp only [List.cons_append, List.append_assoc, List.mem_cons, List.mem_append,
              List.mem_singleton, List.not_mem_nil, or_false] at he
            rcases he with rfl | he | rfl | rfl | he
            · exact Or.inr (Or.inl rfl)
            · exact Or.inl (hs e he)
            · exact Or.inr (Or.inr (Or.inr rfl))
            · exact Or.inr (Or.inr (Or.inl rfl))
            · exact h2 e (by simpa using he)

/-! ## The length field of the header -/

theorem getD_of_drop (h : List Byte) (n i : Nat) : h.getD (n + i) 0 = (h.drop n).getD i 0 := by
  simp [List.getD_eq_getElem?_getD, List.getElem?_drop]

theorem header_split (h : List Byte) (hl : h.length = HEADER) :
    ∃ (a b c d : Byte), h.drop 12 = [a, b, c, d] ∧
      h.getD 12 0 = a ∧ h.getD 13 0 = b ∧ h.getD 14 0 = c ∧ h.getD 15 0 = d := by
  unfold HEADER at hl
  have hd : (h.drop 12).length = 4 := by rw [List.length_drop]; omega
  have e0 := getD_of_drop h 12 0
  have e1 := getD_of_drop h 12 1
  have e2 := getD_of_drop h 12 2
  have e3 := getD_of_drop h 12 3
  match hm : h.drop 12, hd with
  | [a, b, c, d], _ =>
    rw [hm] at e0 e1 e2 e3
    exact ⟨a, b, c, d, rfl, e0, e1, e2, e3⟩

/-- C8: for every 16-byte header the payload length computed by `speakerTask` is
`header[12] + 256*header[13] + 65536*header[14] + 16777216*header[15]`, lies
in `0 .. 2^32 - 1`, is the same for two headers exactly when their bytes
12..15 agree (so it does not depend on bytes 0..11 and is injective in bytes
12..15), and every 32-bit value is the length of some header with the same
bytes 0..11. -/
theorem C8_length_field (h : List Byte) (hl : h.length = HEADER) :
    data_len h = (h.getD 12 0).val + 256 * (h.getD 13 0).val + 65536 * (h.getD 14 0).val
      + 16777216 * (h.getD 15 0).val ∧
    data_len h < 2 ^ 32 ∧
    (∀ g : List Byte, g.length = HEADER → (data_len g = data_len h ↔ g.drop 12 = h.drop 12)) ∧
    (∀ n, n < 2 ^ 32 →
      ∃ g : List Byte, g.length = HEADER ∧ g.take 12 = h.take 12 ∧ data_len g = n) := by
  refine ⟨data_len_eq h, data_len_lt h, ?_, ?_⟩
  · intro g hg
    obtain ⟨a, b, c, d, hd, h0, h1, h2, h3⟩ := header_split h hl
    obtain ⟨a', b', c', d', gd, g0, g1, g2, g3⟩ := header_split g hg
    rw [data_len_eq, data_len_eq, h0, h1, h2, h3, g0, g1, g2, g3, hd, gd]
    constructor
    · intro he
      have ha := a.isLt; have hb := b.isLt; have hc := c.isLt; have hd := d.isLt
      have ha' := a'.isLt; have hb' := b'.isLt; have hc' := c'.isLt; have hd' := d'.isLt
      have e1 : a'.val = a.val := by omega
      have e2 : b'.val = b.val := by omega
      have e3 : c'.val = c.val := by omega
      have e4 : d'.val = d.val := by omega
      rw [Fin.ext e1, Fin.ext e2, Fin.ext e3, Fin.ext e4]
    · intro he
      simp only [List.cons.injEq, and_true] at he
      obtain ⟨rfl, rfl, rfl, rfl⟩ := he
      rfl
  · intro n hn
    refine ⟨h.take 12 ++ [⟨n % 256, by omega⟩, ⟨n / 256 % 256, by omega⟩,
      ⟨n / 65536 % 256, by omega⟩, ⟨n / 16777216, by omega⟩], ?_, ?_, ?_⟩
    · unfold HEADER at *; simp [List.length_take]; omega
    · unfold HEADER at *
      rw [List.take_append_of_le_length (by simp [List.length_take]; omega)]
      simp [List.take_take]
    · have hg : (h.take 12 ++ [(⟨n % 256, by omega⟩ : Byte), ⟨n / 256 % 256, by omega⟩,
          ⟨n / 65536 % 256, by omega⟩, ⟨n / 16777216, by omega⟩]).length = HEADER := by
        unfold HEADER at *; simp [List.length_take]; omega
      obtain ⟨a, b, c, d, gd, g0, g1, g2, g3⟩ := header_split _ hg
      rw [data_len_eq, g0, g1, g2, g3]
      have hdrop : (h.take 12 ++ [(⟨n % 256, by omega⟩ : Byte), ⟨n / 256 % 256, by omega⟩,
          ⟨n / 65536 % 256, by omega⟩, ⟨n / 16777216, by omega⟩]).drop 12
          = [⟨n % 256, by omega⟩, ⟨n / 256 % 256, by omega⟩,
          ⟨n / 65536 % 256, by omega⟩, ⟨n / 16777216, by omega⟩] := by
        unfold HEADER at hl
        rw [List.drop_append_of_le_length (by simp [List.length_take]; omega)]
        simp [List.drop_take]
      rw [hdrop] at gd
      simp only [List.cons.injEq, and_true] at gd
      obtain ⟨rfl, rfl, rfl, rfl⟩ := gd
      simp only
      omega

/-- Witness for C8 at the sample header, whose length field is `0x01020304`. -/
theorem C8_length_field_witness :
    demoHeader.length = HEADER ∧ data_len demoHeader = 16909060 :=
  ⟨by decide, by
    have h := (C8_length_field demoHeader (by decide)).1
    rw [h]; decide⟩

/-! ## Buffer bounds of the payload reads -/

theorem chunkReads_bounds (ph : Phase) (target : Nat) :
    ∀ (evs : List Ev) (n : Nat), chunkReads ph target n evs →
      ∀ e ∈ evs, ∃ p off size bs, e = Ev.read p ph off size bs ∧ off < target ∧
        size = target - off ∧ bs.length ≤ size := by
  intro evs
  induction evs with
  | nil => intro n _ e he; simp at he
  | cons x xs ih =>
    intro n h e he
    cases x with
    | read p ph1 off size bs =>
      obtain ⟨rfl, rfl, h3, h4, h5, h6⟩ := h
      rcases List.mem_cons.1 he with rfl | he
      · exact ⟨p, off, size, bs, rfl, h3, h4, h5⟩
      · exact ih _ h6 e he
    | signal b => exact absurd h (by simp [chunkReads])
    | write p bs => exact absurd h (by simp [chunkReads])
    | flush => exact absurd h (by simp [chunkReads])
    | stop => exact absurd h (by simp [chunkReads])

/-- C9: for every value `r > 0` of the remaining counter the chunk target is
`min r 1024`, between 1 and 1024; the socket reads of the chunk fill start at
offset 0, each asks for `to_read - net_got` bytes at offset `net_got`, the next
starting where the returned bytes end; and no socket read into `netbuf` logged
by `speakerTask`, for any clients and any amount of fuel, reaches past byte 1024. -/
theorem C9_chunk_fits_netbuf :
    (∀ r, 0 < r → to_read r = min r 1024 ∧ 1 ≤ to_read r ∧ to_read r ≤ 1024) ∧
    (∀ (fuel r : Nat) (s : Sys), 0 < r →
      ∃ evs, (recvLoop fuel Phase.payload (to_read r) s.millis [] s).2.log = s.log ++ evs ∧
        chunkReads Phase.payload (to_read r) 0 evs ∧
        ∀ e ∈ evs, ∃ p off size bs, e = Ev.read p Phase.payload off size bs ∧
          size = to_read r - off ∧ 1 ≤ size ∧ off + size ≤ 1024 ∧ bs.length ≤ size) ∧
    (∀ (fuel : Nat) (arrivals : List (Option Conn)) (now : Nat) p off size bs,
      Ev.read p Phase.payload off size bs ∈ (speakerTask fuel arrivals (boot now)).2.log →
        1 ≤ size ∧ off + size ≤ 1024 ∧ bs.length ≤ size) := by
  refine ⟨?_, ?_, ?_⟩
  · intro r hr
    have h1 := to_read_eq_min r
    have h2 := to_read_pos r hr
    have h3 := (to_read_le r).2
    unfold NETBUF at h1 h3
    exact ⟨h1, h2, h3⟩
  · intro fuel r s _
    obtain ⟨evs, h1, h2⟩ :=
      recvLoop_chunkReads fuel Phase.payload (to_read r) s.millis [] s (Nat.zero_le _)
    refine ⟨evs, h1, h2, ?_⟩
    intro e he
    obtain ⟨p, off, size, bs, rfl, h3, h4, h5⟩ := chunkReads_bounds _ _ evs _ h2 e he
    have h6 := (to_read_le r).2
    unfold NETBUF at h6
    exact ⟨p, off, size, bs, rfl, h4, by omega, by omega, h5⟩
  · intro fuel arrivals now p off size bs hmem
    obtain ⟨evs, h1, h2, -, -⟩ := speakerTask_log fuel arrivals (boot now)
    rw [h1] at hmem
    have hmem2 : Ev.read p Phase.payload off size bs ∈ evs := by simpa [boot] using hmem
    rcases h2 _ hmem2 with h | h | h | h
    · obtain ⟨-, h3, h4, h5⟩ := h
      unfold NETBUF at h3
      exact ⟨h4, h3, h5⟩
    · cases h
    · cases h
    · cases h

/-! ## The remaining-byte counter -/

/-- C10: for every header (declared length `L = data_len h`), every schedule and
every amount of fuel, the bytes the payload loop has handed to the sink are an
initial segment of the bytes it has read, which are an initial segment of the
wire; at most `L` bytes reach the sink; on every exit of the loop
`remaining + written = L`, `remaining ≤ L` and everything read was written.
For each chunk `net_got ≤ to_read ≤ remaining`, so `remaining -= net_got`
does not wrap and does not increase `remaining`. -/
theorem C10_remaining_accounting (fuel : Nat) (h : List Byte) (s : Sys) :
    (∃ evs, (playLoop fuel (data_len h) s).2.log = s.log ++ evs ∧
        sinkBytes evs <+: readBytes evs ∧
        readBytes evs <+: s.wire ∧
        (sinkBytes evs).length ≤ data_len h ∧
        (∀ rem, (playLoop fuel (data_len h) s).1 = some rem →
           rem + (sinkBytes evs).length = data_len h ∧ rem ≤ data_len h ∧
           sinkBytes evs = readBytes evs)) ∧
    (∀ rem g s1, 0 < rem → rem < U32 →
        recvLoop fuel Phase.payload (to_read rem) s.millis [] s = (some g, s1) →
        g.length ≤ to_read rem ∧ to_read rem ≤ rem ∧
        subSize rem g.length = rem - g.length ∧ subSize rem g.length ≤ rem) := by
  constructor
  · obtain ⟨-, -, -, evs, p4, -, p6, -, p8, p9, -, p11⟩ :=
      playLoop_spec fuel (data_len h) s (data_len_lt h)
    refine ⟨evs, p4, p8, ⟨_, p6⟩, p9, ?_⟩
    intro rem hrem
    obtain ⟨q1, q2⟩ := p11 rem hrem
    exact ⟨q1, by omega, q2⟩
  · intro rem g s1 _ hlt hrecv
    obtain ⟨-, -, -, evs, -, -, -, -, r8, r9⟩ :=
      recvLoop_spec fuel Phase.payload (to_read rem) s.millis [] s (Nat.zero_le _)
    rw [hrecv] at r9
    have hg : g = readBytes evs := by simpa using r9 g rfl
    have hle : g.length ≤ to_read rem := by rw [hg]; simpa using r8
    have htr := (to_read_le rem).1
    have hsub := subSize_eq rem g.length (by omega) hlt
    exact ⟨hle, htr, hsub, by omega⟩

/-! ## The exclusivity signal -/

/-- C2: serving a client from any state, for any amount of fuel: the log grows
by the store `is_playing_tts = true` followed by session calls, each socket
read and sink write stamped with the value `true`, none of them a store to the
signal; while the session is running (fuel exhausted) the signal is `true`;
once it has ended, by whatever exit, the log ends with `client.stop()` and the
store `is_playing_tts = false`, and the signal is `false`.  For `speakerTask`, run
from power-on over any sequence of acceptor passes: every socket read and every
sink write in the log is stamped `true`, the signal is `true` in every state
inside a session and `false` after every completed pass. -/
theorem C2_signal_tracks_session (fuel : Nat) (arrivals : List (Option Conn)) (now : Nat)
    (c : Conn) (s : Sys) :
    (∃ evs, (∀ e ∈ evs, e.sane true) ∧
      (((serve fuel c s).1 = none ∧ (serve fuel c s).2.is_playing_tts = true ∧
          (serve fuel c s).2.log = s.log ++ Ev.signal true :: evs) ∨
       ((serve fuel c s).1 = some () ∧ (serve fuel c s).2.is_playing_tts = false ∧
          (serve fuel c s).2.log
            = s.log ++ Ev.signal true :: (evs ++ [Ev.stop, Ev.signal false])))) ∧
    (∀ p ph off size bs,
      Ev.read p ph off size bs ∈ (speakerTask fuel arrivals (boot now)).2.log → p = true) ∧
    (∀ p bs, Ev.write p bs ∈ (speakerTask fuel arrivals (boot now)).2.log → p = true) ∧
    ((speakerTask fuel arrivals (boot now)).1 = none →
      (speakerTask fuel arrivals (boot now)).2.is_playing_tts = true) ∧
    ((speakerTask fuel arrivals (boot now)).1 = some () →
      (speakerTask fuel arrivals (boot now)).2.is_playing_tts = false) := by
  obtain ⟨evs, h1, h2, h3, h4⟩ := speakerTask_log fuel arrivals (boot now)
  refine ⟨?_, ?_, ?_, h3, fun hd => h4 hd rfl⟩
  · obtain ⟨evs, hs, hcase⟩ := serve_spec fuel c s
    refine ⟨evs, hs, ?_⟩
    rcases hcase with h | ⟨a, b, c, -, -⟩
    · exact Or.inl h
    · exact Or.inr ⟨a, b, c⟩
  · intro p ph off size bs hmem
    rw [h1] at hmem
    have hmem2 : Ev.read p ph off size bs ∈ evs := by simpa [boot] using hmem
    rcases h2 _ hmem2 with h | h | h | h
    · cases ph with
      | header => exact h.1
      | payload => exact h.1
    · cases h
    · cases h
    · cases h
  · intro p bs hmem
    rw [h1] at hmem
    have hmem2 : Ev.write p bs ∈ evs := by simpa [boot] using hmem
    rcases h2 _ hmem2 with h | h | h | h
    · exact h.1
    · cases h
    · cases h
    · cases h

/-! ## Silencing the sink -/

theorem recvLoop_mono (ph : Phase) (target start : Nat) (k : Nat) :
    ∀ (fuel : Nat) (got : List Byte) (s : Sys) (g : List Byte) (s1 : Sys),
      recvLoop fuel ph target start got s = (some g, s1) →
      recvLoop (fuel + k) ph target start got s = (some g, s1) := by
  intro fuel
  induction fuel with
  | zero => intro got s g s1 h; simp [recvLoop] at h
  | succ fuel ih =>
    intro got s g s1 h
    have e : fuel + 1 + k = (fuel + k) + 1 := by omega
    rw [e]
    by_cases hc : got.length < target ∧ s.connected = true
    · by_cases ha : s.available = true
      · rw [recvLoop_read _ ph target start got s hc ha] at h ⊢
        exact ih _ _ _ _ h
      · by_cases ht : elapsed s.delay.millis start > DEADLINE
        · rw [recvLoop_late _ ph target start got s hc ha ht] at h ⊢
          exact h
        · rw [recvLoop_wait _ ph target start got s hc ha ht] at h ⊢
          exact ih _ _ _ _ h
    · rw [recvLoop_done _ ph target start got s hc] at h ⊢
      exact h

theorem playLoop_mono (k : Nat) :
    ∀ (fuel remaining : Nat) (s : Sys) (rem : Nat) (s2 : Sys),
      playLoop fuel remaining s = (some rem, s2) →
      playLoop (fuel + k) remaining s = (some rem, s2) := by
  intro fuel
  induction fuel with
  | zero => intro remaining s rem s2 h; simp [playLoop] at h
  | succ fuel ih =>
    intro remaining s rem s2 h
    have e : fuel + 1 + k = (fuel + k) + 1 := by omega
    rw [e]
    by_cases hc : remaining > 0 ∧ s.connected = true
    · cases hres : recvLoop fuel Phase.payload (to_read remaining) s.millis [] s with
      | mk res s1 =>
        cases res with
        | none =>
          rw [playLoop_starved fuel remaining s s1 hc hres] at h
          cases h
        | some g =>
          have hres2 := recvLoop_mono Phase.payload (to_read remaining) s.millis k fuel [] s g s1 hres
          by_cases hz : g.length = 0
          · rw [playLoop_stall _ remaining s s1 g hc hres hz] at h
            rw [playLoop_stall _ remaining s s1 g hc hres2 hz]
            exact h
          · rw [playLoop_chunk _ remaining s s1 g hc hres hz] at h
            rw [playLoop_chunk _ remaining s s1 g hc hres2 hz]
            exact ih _ _ _ _ h
    · rw [playLoop_done _ remaining s hc] at h ⊢
      exact h

theorem frameBody_mono (k fuel : Nat) (s : Sys) (ex : Exit) (s2 : Sys)
    (h : frameBody fuel s = (some ex, s2)) :
    frameBody (fuel + k) s = (some ex, s2) := by
  cases hres : recvLoop fuel Phase.header HEADER s.millis [] s with
  | mk res s1 =>
    cases res with
    | none =>
      rw [frameBody_starved fuel s s1 hres] at h
      cases h
    | some hd =>
      have hres2 := recvLoop_mono Phase.header HEADER s.millis k fuel [] s hd s1 hres
      by_cases hl : hd.length < HEADER
      · rw [frameBody_short fuel s s1 hd hres hl] at h
        rw [frameBody_short _ s s1 hd hres2 hl]
        exact h
      · by_cases hm : hd.getD 0 0 ≠ MAGIC
        · rw [frameBody_magic fuel s s1 hd hres hl hm] at h
          rw [frameBody_magic _ s s1 hd hres2 hl hm]
          exact h
        · cases hpl : playLoop fuel (data_len hd) s1 with
          | mk pres s3 =>
            cases pres with
            | none =>
              rw [frameBody_play_starved fuel s s1 s3 hd hres hl hm hpl] at h
              cases h
            | some rem =>
              have hpl2 := playLoop_mono k fuel (data_len hd) s1 rem s3 hpl
              rw [frameBody_play fuel s s1 s3 hd rem hres hl hm hpl] at h
              rw [frameBody_play _ s s1 s3 hd rem hres2 hl hm hpl2]
              exact h

theorem sessionLoop_mono (k : Nat) :
    ∀ (fuel : Nat) (s s2 : Sys),
      sessionLoop fuel s = (some (), s2) → sessionLoop (fuel + k) s = (some (), s2) := by
  intro fuel
  induction fuel with
  | zero => intro s s2 h; simp [sessionLoop] at h
  | succ fuel ih =>
    intro s s2 h
    have e : fuel + 1 + k = (fuel + k) + 1 := by omega
    rw [e]
    by_cases hc : s.connected = true
    · cases hres : frameBody fuel s with
      | mk res s1 =>
        cases res with
        | none =>
          rw [sessionLoop_starved fuel s s1 hc hres] at h
          cases h
        | some ex =>
          have hres2 := frameBody_mono k fuel s ex s1 hres
          cases ex with
          | brk =>
            rw [sessionLoop_brk fuel s s1 hc hres] at h
            rw [sessionLoop_brk _ s s1 hc hres2]
            exact h
          | next =>
            rw [sessionLoop_next fuel s s1 hc hres] at h
            rw [sessionLoop_next _ s s1 hc hres2]
            exact ih _ _ h
    · rw [sessionLoop_closed _ s hc] at h ⊢
      exact h

theorem serve_of_session (fuel : Nat) (c : Conn) (s s1 : Sys)
    (h : sessionLoop fuel ((s.accept c).setPlaying true) = (some (), s1)) :
    serve fuel c s = (some (), (s1.stop).setPlaying false) := by
  unfold serve
  rw [h]

theorem le_fuel (a b : Nat) (h : a ≤ b) : b = a + (b - a) := by omega

/-! ## A header that does not start with the magic tag -/

/-- C3: if the header loop, run on a freshly accepted client, returns sixteen
bytes whose first is not `'P'`, then the session ends (for every amount of fuel
from `fuel0 + 1` on): between the store `is_playing_tts = true` and the
closing `client.stop()`, `is_playing_tts = false` the log holds only header
reads, which returned exactly those sixteen bytes; no payload read is issued,
nothing reaches the sink, and the signal is `false` at the end. -/
theorem C3_bad_magic_aborts (fuel0 : Nat) (c : Conn) (s : Sys) (hdr : List Byte) (s1 : Sys)
    (hrecv : recvLoop fuel0 Phase.header HEADER ((s.accept c).setPlaying true).millis []
      ((s.accept c).setPlaying true) = (some hdr, s1))
    (hlen : hdr.length = HEADER) (hmagic : hdr.getD 0 0 ≠ MAGIC) :
    ∃ evs, (∀ fuel, fuel0 + 1 ≤ fuel →
        serve fuel c s = (some (), (s1.stop).setPlaying false)) ∧
      ((s1.stop).setPlaying false).log
        = s.log ++ Ev.signal true :: (evs ++ [Ev.stop, Ev.signal false]) ∧
      (∀ e ∈ evs, e.isHeaderRead) ∧ readBytes evs = hdr ∧ sinkBytes evs = [] ∧
      ((s1.stop).setPlaying false).is_playing_tts = false := by
  have hconn : ((s.accept c).setPlaying true).connected = true := by
    by_contra hc
    cases fuel0 with
    | zero => simp [recvLoop] at hrecv
    | succ f =>
      rw [recvLoop_done f _ _ _ _ _ (fun h => hc h.2)] at hrecv
      have : hdr = [] := by
        have := congrArg Prod.fst hrecv
        simpa using this.symm
      rw [this] at hlen
      simp [HEADER] at hlen
  have hfr : frameBody fuel0 ((s.accept c).setPlaying true) = (some Exit.brk, s1) :=
    frameBody_magic fuel0 _ s1 hdr hrecv (by omega) hmagic
  have hses : sessionLoop (fuel0 + 1) ((s.accept c).setPlaying true) = (some (), s1) :=
    sessionLoop_brk fuel0 _ s1 hconn hfr
  obtain ⟨-, -, -, evs, r4, r5, -, -, -, r9⟩ :=
    recvLoop_spec fuel0 Phase.header HEADER ((s.accept c).setPlaying true).millis []
      ((s.accept c).setPlaying true) (Nat.zero_le _)
  rw [hrecv] at r4 r9
  have hh : hdr = readBytes evs := by simpa using r9 hdr rfl
  refine ⟨evs, ?_, ?_, ?_, hh.symm, ?_, rfl⟩
  · intro fuel hf
    rw [le_fuel _ _ hf]
    exact serve_of_session _ c s s1 (sessionLoop_mono _ _ _ _ hses)
  · simp only [Sys.setPlaying, Sys.stop]
    simp only at r4
    rw [r4]
    simp [Sys.setPlaying, Sys.accept]
  · intro e he
    exact (headerRead_sane _ e (r5 e he)).2
  · exact sinkBytes_of_reads evs (fun e he => by
      obtain ⟨off, size, bs, h, -⟩ := r5 e he
      exact ⟨_, _, _, _, _, h⟩)

/-- Witness for C3: sixteen bytes starting with `'Q'`, more data behind them. -/
theorem C3_bad_magic_aborts_witness :
    (serve 5 junkConn (boot 0)).1 = some () ∧
    (serve 5 junkConn (boot 0)).2.log
      = [Ev.signal true,
         Ev.read true Phase.header 0 16 [81, 0, 0, 0, 0, 0, 0, 0, 0, 0, 0, 0, 4, 0, 0, 0],
         Ev.stop, Ev.signal false] := by
  obtain ⟨evs, h1, -⟩ := C3_bad_magic_aborts 2 junkConn (boot 0)
    [81, 0, 0, 0, 0, 0, 0, 0, 0, 0, 0, 0, 4, 0, 0, 0]
    (recvLoop 2 Phase.header HEADER (((boot 0).accept junkConn).setPlaying true).millis []
      (((boot 0).accept junkConn).setPlaying true)).2
    (Prod.ext (by decide) rfl) (by decide) (by decide)
  exact ⟨by rw [h1 5 (by decide)], by decide⟩

/-! ## A stall in the middle of a payload -/

/-- C4, evaluated: the client announces four payload bytes, stays silent past
the deadline with the connection up, then sends sixteen bytes.  The payload
loop is left with nothing written, the sink is flushed, and `speakerTask` goes on
to read those sixteen bytes as a new header on the same connection. -/
theorem C4_stall_returns_to_header :
    (serve 6 stallConn (boot 0)).1 = some () ∧
    (serve 6 stallConn (boot 0)).2.log
      = [Ev.signal true,
         Ev.read true Phase.header 0 16 [80, 0, 0, 0, 0, 0, 0, 0, 0, 0, 0, 0, 4, 0, 0, 0],
         Ev.flush,
         Ev.read true Phase.header 0 16 [80, 0, 0, 0, 0, 0, 0, 0, 0, 0, 0, 0, 0, 0, 0, 0],
         Ev.flush,
         Ev.stop, Ev.signal false] := by
  decide

/-! ## Reading the poll -/

theorem poll_data (s : Sys) (k : Nat) (h : s.poll = Poll.data k) :
    s.connected = true ∧ s.available = true := by
  unfold Sys.connected Sys.available; rw [h]; exact ⟨rfl, rfl⟩

theorem poll_idle (s : Sys) (dt : Wait) (h : s.poll = Poll.idle dt) :
    s.connected = true ∧ ¬ s.available = true := by
  unfold Sys.connected Sys.available; rw [h]; exact ⟨rfl, by simp⟩

theorem poll_closed (s : Sys) (h : s.poll = Poll.closed) : ¬ s.connected = true := by
  unfold Sys.connected; rw [h]; simp

theorem read_length (s : Sys) (ph : Phase) (off size k : Nat) (h : s.poll = Poll.data k) :
    (s.read ph off size).1.length = min (min k size) s.wire.length := by
  simp [Sys.read, Sys.grant, h]

theorem poll_eq (s : Sys) (env : Nat → Nat → Poll) (n i : Nat)
    (he : s.env = env) (hr : s.rd = n) (hp : s.pos = i) : s.poll = env i n := by
  unfold Sys.poll; rw [he, hr, hp]

theorem elapsed_step (m st dt a : Nat) (h : elapsed m st = a) (ha : a + dt < U32) :
    elapsed ((m + dt) % U32) st = a + dt := by
  unfold elapsed U32 at *
  omega

theorem elapsed_start (m : Nat) : elapsed m m = 0 := by
  unfold elapsed U32
  omega

/-! ## Receive loops on a steady connection -/

theorem steady_sub (env : Nat → Nat → Poll) (lo hi lo1 hi1 : Nat)
    (h : Steady env lo hi) (h1 : lo ≤ lo1) (h2 : hi1 ≤ hi) : Steady env lo1 hi1 :=
  fun n hn1 hn2 i => h n (by omega) (by omega) i

/-- Once data is known to turn up, a receive loop that can always go on after
a read comes to an end. -/
theorem recv_arrives (ph : Phase) (target start : Nat) (got : List Byte)
    (env : Nat → Nat → Poll) (n : Nat) (w : List Byte)
    (hnext : ∀ s : Sys, s.env = env → s.rd = n → s.wire = w →
      ∀ k, s.poll = Poll.data k → 1 ≤ k →
      ∃ fuel g s1, recvLoop fuel ph target start
        (got ++ (s.read ph got.length (target - got.length)).1)
        (s.read ph got.length (target - got.length)).2 = (some g, s1)) :
    ∀ i a, Arrives (fun j => env j n) i a →
      ∀ s : Sys, s.env = env → s.rd = n → s.wire = w → s.pos = i →
        ∃ fuel g s1, recvLoop fuel ph target start got s = (some g, s1) := by
  intro i a harr
  induction harr with
  | now i a k hk hk1 =>
    intro s he hr hw hp
    have hpoll : s.poll = Poll.data k := by rw [poll_eq s env n i he hr hp]; exact hk
    by_cases hc : got.length < target ∧ s.connected = true
    · obtain ⟨fuel, g, s1, h⟩ := hnext s he hr hw k hpoll hk1
      exact ⟨fuel + 1, g, s1, by
        rw [recvLoop_read fuel ph target start got s hc (poll_data s k hpoll).2]; exact h⟩
    · exact ⟨1, got, s, recvLoop_done 0 ph target start got s hc⟩
  | wait i a dt hd _ _ ih =>
    intro s he hr hw hp
    have hpoll : s.poll = Poll.idle dt := by rw [poll_eq s env n i he hr hp]; exact hd
    by_cases hc : got.length < target ∧ s.connected = true
    · by_cases ht : elapsed s.delay.millis start > DEADLINE
      · exact ⟨1, got, s.delay,
          recvLoop_late 0 ph target start got s hc (poll_idle s dt hpoll).2 ht⟩
      · obtain ⟨fuel, g, s1, h⟩ := ih s.delay (by simpa using he) (by simpa using hr)
          (by simpa using hw) (by simp [hp])
        exact ⟨fuel + 1, g, s1, by
          rw [recvLoop_wait fuel ph target start got s hc (poll_idle s dt hpoll).2 ht]
          exact h⟩
    · exact ⟨1, got, s, recvLoop_done 0 ph target start got s hc⟩

/-- On a steady connection with enough bytes on the wire a receive loop comes
to an end, whatever has been received so far. -/
theorem recv_steady (ph : Phase) (target start : Nat) :
    ∀ (m : Nat) (got : List Byte) (s : Sys), target - got.length ≤ m →
      Steady s.env s.rd (s.rd + (target - got.length)) →
      target - got.length ≤ s.wire.length →
      ∃ fuel g s1, recvLoop fuel ph target start got s = (some g, s1) := by
  intro m
  induction m with
  | zero =>
    intro got s hm _ _
    exact ⟨1, got, s, recvLoop_done 0 ph target start got s (fun h => by omega)⟩
  | succ m ih =>
    intro got s hm hst hw
    by_cases hlt : got.length < target
    · refine recv_arrives ph target start got s.env s.rd s.wire ?_ s.pos 0
        (hst s.rd (le_refl _) (by omega) s.pos) s rfl rfl rfl rfl
      intro s' he hr hw' k hpoll hk
      have hlen := read_length s' ph got.length (target - got.length) k hpoll
      have hwire := read_wire s' ph got.length (target - got.length)
      have hwl : s'.wire.length
          = (s'.read ph got.length (target - got.length)).1.length
            + (s'.read ph got.length (target - got.length)).2.wire.length := by
        rw [← List.length_append, hwire]
      rw [hw'] at hlen hwl
      refine ih _ _ ?_ ?_ ?_
      · rw [List.length_append]; omega
      · rw [List.length_append, read_env, read_rd, he, hr]
        exact steady_sub _ _ _ _ _ hst (by omega) (by omega)
      · rw [List.length_append]; omega
    · exact ⟨1, got, s, recvLoop_done 0 ph target start got s (fun h => hlt h.1)⟩

/-- While nothing has been received and the waiting so far is accounted for,
the deadline does not fire before data turns up: the chunk ends non-empty. -/
theorem recv_first (ph : Phase) (target start : Nat)
    (env : Nat → Nat → Poll) (n : Nat) (w : List Byte) (htarget : 0 < target)
    (hnext : ∀ s : Sys, s.env = env → s.rd = n → s.wire = w →
      ∀ k, s.poll = Poll.data k → 1 ≤ k →
      ∃ fuel g s1, recvLoop fuel ph target start
        ([] ++ (s.read ph 0 (target - 0)).1) (s.read ph 0 (target - 0)).2 = (some g, s1)
        ∧ 1 ≤ g.length) :
    ∀ i a, Arrives (fun j => env j n) i a →
      ∀ s : Sys, s.env = env → s.rd = n → s.wire = w → s.pos = i →
        elapsed s.millis start = a →
        ∃ fuel g s1, recvLoop fuel ph target start [] s = (some g, s1) ∧ 1 ≤ g.length := by
  intro i a harr
  induction harr with
  | now i a k hk hk1 =>
    intro s he hr hw hp _
    have hpoll : s.poll = Poll.data k := by rw [poll_eq s env n i he hr hp]; exact hk
    have hc : ([] : List Byte).length < target ∧ s.connected = true :=
      ⟨htarget, (poll_data s k hpoll).1⟩
    obtain ⟨fuel, g, s1, h, hg⟩ := hnext s he hr hw k hpoll hk1
    exact ⟨fuel + 1, g, s1, by
      rw [recvLoop_read fuel ph target start [] s hc (poll_data s k hpoll).2]; exact h, hg⟩
  | wait i a dt hd hdl _ ih =>
    intro s he hr hw hp hel
    have hpoll : s.poll = Poll.idle dt := by rw [poll_eq s env n i he hr hp]; exact hd
    have hc : ([] : List Byte).length < target ∧ s.connected = true :=
      ⟨htarget, (poll_idle s dt hpoll).1⟩
    have hm : elapsed s.delay.millis start = a + dt.val := by
      rw [delay_millis s dt hpoll]
      exact elapsed_step _ _ _ _ hel (by unfold DEADLINE at hdl; unfold U32; omega)
    have ht : ¬ elapsed s.delay.millis start > DEADLINE := by rw [hm]; omega
    obtain ⟨fuel, g, s1, h, hg⟩ := ih s.delay (by simpa using he) (by simpa using hr)
      (by simpa using hw) (by simp [hp]) hm
    exact ⟨fuel + 1, g, s1, by
      rw [recvLoop_wait fuel ph target start [] s hc (poll_idle s dt hpoll).2 ht]
      exact h, hg⟩

/-- On a steady connection a chunk fill ends with at least one byte. -/
theorem chunk_steady (ph : Phase) (target : Nat) (s : Sys) (htarget : 0 < target)
    (hst : Steady s.env s.rd (s.rd + target)) (hw : target ≤ s.wire.length) :
    ∃ fuel g s1, recvLoop fuel ph target s.millis [] s = (some g, s1) ∧ 1 ≤ g.length := by
  refine recv_first ph target s.millis s.env s.rd s.wire htarget ?_ s.pos 0
    (hst s.rd (le_refl _) (by omega) s.pos) s rfl rfl rfl rfl (elapsed_start _)
  intro s' he hr hw' k hpoll hk
  have hlen := read_length s' ph 0 (target - 0) k hpoll
  have hwire := read_wire s' ph 0 (target - 0)
  have hwl : s'.wire.length
      = (s'.read ph 0 (target - 0)).1.length + (s'.read ph 0 (target - 0)).2.wire.length := by
    rw [← List.length_append, hwire]
  rw [hw'] at hlen hwl
  obtain ⟨fuel, g, s1, h⟩ := recv_steady ph target s.millis target
    ([] ++ (s'.read ph 0 (target - 0)).1) (s'.read ph 0 (target - 0)).2 (by omega)
    (by
      rw [List.length_append, read_env, read_rd, he, hr]
      exact steady_sub _ _ _ _ _ hst (by omega) (by simp only [List.length_nil]; omega))
    (by rw [List.length_append]; simp only [List.length_nil]; omega)
  refine ⟨fuel, g, s1, h, ?_⟩
  obtain ⟨-, -, -, evs, -, -, -, -, -, r9⟩ := recvLoop_spec fuel ph target s.millis
    ([] ++ (s'.read ph 0 (target - 0)).1) (s'.read ph 0 (target - 0)).2
    (by rw [List.length_append]; simp only [List.length_nil]; omega)
  rw [h] at r9
  rw [r9 g rfl]
  simp only [List.nil_append, List.length_append]
  omega

/-! ## The payload loop on a steady connection -/

theorem arrives_connected (s : Sys) (a : Nat)
    (h : Arrives (fun j => s.env j s.rd) s.pos a) : s.connected = true := by
  cases h with
  | now i a k hk _ => exact (poll_data s k hk).1
  | wait i a dt hd _ _ => exact (poll_idle s dt hd).1

theorem max_fuel (a b : Nat) : ∃ k1 k2, max a b = a + k1 ∧ max a b = b + k2 :=
  ⟨max a b - a, max a b - b, by omega, by omega⟩

/-- On a connection that stays steady until `remaining` more bytes have been
taken, the payload loop runs `remaining` down to zero. -/
theorem play_steady :
    ∀ (m remaining : Nat) (s : Sys), remaining ≤ m → remaining < U32 →
      remaining ≤ s.wire.length → Steady s.env s.rd (s.rd + remaining) →
      ∃ fuel s1, playLoop fuel remaining s = (some 0, s1) := by
  intro m
  induction m with
  | zero =>
    intro remaining s hm _ _ _
    have h0 : remaining = 0 := by omega
    subst h0
    exact ⟨1, s, playLoop_done 0 0 s (fun h => by omega)⟩
  | succ m ih =>
    intro remaining s hm hlt hw hst
    by_cases hpos : 0 < remaining
    · have hconn : s.connected = true :=
        arrives_connected s 0 (hst s.rd (le_refl _) (by omega) s.pos)
      have htr := to_read_le remaining
      have htp := to_read_pos remaining hpos
      obtain ⟨f1, g, s1, hrecv, hg⟩ := chunk_steady Phase.payload (to_read remaining) s htp
        (steady_sub _ _ _ _ _ hst (le_refl _) (by omega)) (by omega)
      obtain ⟨r1, -, -, evs, -, -, r6, r7, r8, r9⟩ :=
        recvLoop_spec f1 Phase.payload (to_read remaining) s.millis [] s (Nat.zero_le _)
      rw [hrecv] at r1 r6 r7 r9
      simp only at r1 r6 r7 r9
      have hge : g = readBytes evs := by simpa using r9 g rfl
      rw [← hge] at r6 r7 r8
      simp only [List.length_nil, Nat.zero_add] at r8
      have hwl : s.wire.length = g.length + s1.wire.length := by
        rw [← List.length_append, r6]
      have hsub : subSize remaining g.length = remaining - g.length :=
        subSize_eq _ _ (by omega) hlt
      obtain ⟨f2, s2, hplay⟩ := ih (remaining - g.length) (s1.i2s_write g) (by omega)
        (by omega) (by simp only [write_wire]; omega)
        (by
          simp only [write_env, write_rd]
          rw [r1, r7]
          exact steady_sub _ _ _ _ _ hst (by omega) (by omega))
      obtain ⟨k1, k2, e1, e2⟩ := max_fuel f1 f2
      refine ⟨max f1 f2 + 1, s2, ?_⟩
      rw [playLoop_chunk (max f1 f2) remaining s s1 g ⟨hpos, hconn⟩
        (by rw [e1]; exact recvLoop_mono _ _ _ k1 f1 _ _ _ _ hrecv) (by omega), hsub, e2]
      exact playLoop_mono k2 f2 _ _ _ _ hplay
    · have h0 : remaining = 0 := by omega
      subst h0
      exact ⟨1, s, playLoop_done 0 0 s (fun h => by omega)⟩

/-- The outcome of a payload loop that runs down to zero: the sink was handed
exactly the next `remaining` bytes of the wire. -/
theorem play_exact (fuel remaining : Nat) (s s1 : Sys) (payload rest : List Byte)
    (hlt : remaining < U32) (hl : payload.length = remaining)
    (hw : s.wire = payload ++ rest) (h : playLoop fuel remaining s = (some 0, s1)) :
    s1.env = s.env ∧ s1.is_playing_tts = s.is_playing_tts ∧ s.pos ≤ s1.pos ∧
    s1.rd = s.rd + remaining ∧ s1.wire = rest ∧
    ∃ pv, s1.log = s.log ++ pv ∧ sinkBytes pv = payload ∧
      (∀ e ∈ pv, e.sane s.is_playing_tts ∧ ¬ e.isHeaderRead ∧ e ≠ Ev.flush) := by
  obtain ⟨p1, p2, p3, pv, p4, p5, p6, p7, -, -, -, p11⟩ := playLoop_spec fuel remaining s hlt
  rw [h] at p1 p2 p3 p4 p6 p7 p11
  simp only at p1 p2 p3 p4 p6 p7 p11
  obtain ⟨q1, q2⟩ := p11 0 rfl
  rw [← q2] at p6 p7
  have hlen : (sinkBytes pv).length = payload.length := by omega
  rw [hw] at p6
  obtain ⟨e1, e2⟩ := List.append_inj p6 hlen
  exact ⟨p1, p2, p3, by omega, e2, pv, p4, e1, p5⟩

/-- After a valid header, on a connection that stays steady for the length of
the payload, the pass through the session loop plays the payload and flushes. -/
theorem frame_after_header (fuel0 : Nat) (s s1 : Sys) (hdr payload rest : List Byte)
    (hrecv : recvLoop fuel0 Phase.header HEADER s.millis [] s = (some hdr, s1))
    (hlen : hdr.length = HEADER) (hmagic : hdr.getD 0 0 = MAGIC)
    (hL : payload.length = data_len hdr)
    (hwire : s1.wire = payload ++ rest)
    (hsteady : Steady s1.env s1.rd (s1.rd + payload.length)) :
    ∃ fuel s2 pv, frameBody fuel s = (some Exit.next, s2) ∧
      s2.log = s1.log ++ pv ++ [Ev.flush] ∧
      sinkBytes pv = payload ∧
      (∀ e ∈ pv, ¬ e.isHeaderRead ∧ e ≠ Ev.flush) ∧
      s2.wire = rest ∧ s2.env = s1.env ∧ s2.rd = s1.rd + payload.length ∧
      s2.is_playing_tts = s1.is_playing_tts := by
  obtain ⟨f2, s2, hplay⟩ := play_steady (data_len hdr) (data_len hdr) s1 (le_refl _)
    (data_len_lt hdr) (by rw [hwire, List.length_append]; omega) (by rw [← hL]; exact hsteady)
  obtain ⟨he2, hf2, -, hr2, hw2, pv, hlog, hsink, hpv⟩ :=
    play_exact f2 (data_len hdr) s1 s2 payload rest (data_len_lt hdr) hL hwire hplay
  obtain ⟨k1, k2, e1, e2⟩ := max_fuel fuel0 f2
  refine ⟨max fuel0 f2, s2.i2s_zero_dma_buffer, pv, ?_, ?_, hsink,
    fun e he => (hpv e he).2, hw2, he2, by simp only [flush_rd]; omega, hf2⟩
  · exact frameBody_play _ s s1 s2 hdr 0
      (by rw [e1]; exact recvLoop_mono _ _ _ k1 fuel0 _ _ _ _ hrecv) (by omega)
      (by simpa using hmagic) (by rw [e2]; exact playLoop_mono k2 f2 _ _ _ _ hplay)
  · simp only [flush_log]; rw [hlog]

/-! ## C1 -/

/-- C1: let the header loop have returned a 16-byte header that starts with
`'P'` and announces `L = data_len hdr` bytes, let the wire hold a payload of
exactly `L` bytes next, and let the connection be steady until those `L` bytes
are taken (up, each read returning at least one byte, data never further away
than the deadline), in whatever pieces.  Then, given enough fuel, the pass
through the session loop completes, and between the header reads and the
closing flush the sink is handed exactly the payload: the same `L` bytes in
the same order, and the wire is left at the byte after the payload. -/
theorem C1_payload_reaches_sink (fuel0 : Nat) (s s1 : Sys) (hdr payload rest : List Byte)
    (hrecv : recvLoop fuel0 Phase.header HEADER s.millis [] s = (some hdr, s1))
    (hlen : hdr.length = HEADER) (hmagic : hdr.getD 0 0 = MAGIC)
    (hL : payload.length = data_len hdr)
    (hwire : s1.wire = payload ++ rest)
    (hsteady : Steady s1.env s1.rd (s1.rd + payload.length)) :
    ∃ fuel s2 pv, frameBody fuel s = (some Exit.next, s2) ∧
      s2.log = s1.log ++ pv ++ [Ev.flush] ∧
      sinkBytes pv = payload ∧ (sinkBytes pv).length = data_len hdr ∧
      (∀ e ∈ pv, ¬ e.isHeaderRead ∧ e ≠ Ev.flush) ∧
      s2.wire = rest := by
  obtain ⟨fuel, s2, pv, h1, h2, h3, h4, h5, -⟩ :=
    frame_after_header fuel0 s s1 hdr payload rest hrecv hlen hmagic hL hwire hsteady
  exact ⟨fuel, s2, pv, h1, h2, h3, by rw [h3, hL], h4, h5⟩

/-! ## Headers that arrive within the deadline -/

theorem fills_connected (s : Sys) (a need : Nat) (hn : 0 < need)
    (h : Fills s.env s.pos s.rd a need) : s.connected = true := by
  cases h with
  | done => omega
  | data _ _ _ _ k _ hk _ _ => exact (poll_data s k hk).1
  | wait _ _ _ _ dt _ hd _ _ => exact (poll_idle s dt hd).1

/-- A receive loop whose missing bytes arrive within the deadline, counted
from its start, fills its target. -/
theorem recv_fills (ph : Phase) (target start : Nat) (env : Nat → Nat → Poll) :
    ∀ pos rd a need, Fills env pos rd a need →
      ∀ (got : List Byte) (s : Sys), s.env = env → s.pos = pos → s.rd = rd →
        got.length + need = target → need ≤ s.wire.length →
        elapsed s.millis start = a →
        ∃ fuel g s1, recvLoop fuel ph target start got s = (some g, s1) ∧
          g.length = target := by
  intro pos rd a need h
  induction h with
  | done pos rd a =>
    intro got s _ _ _ hg _ _
    exact ⟨1, got, s, recvLoop_done 0 ph target start got s (fun h => by omega), by omega⟩
  | data pos rd a need k hn hk hk1 _ ih =>
    intro got s he hp hr hg hw hel
    have hpoll : s.poll = Poll.data k := by rw [poll_eq s env rd pos he hr hp]; exact hk
    have hlen := read_length s ph got.length (target - got.length) k hpoll
    have hwire := read_wire s ph got.length (target - got.length)
    have hwl : s.wire.length
        = (s.read ph got.length (target - got.length)).1.length
          + (s.read ph got.length (target - got.length)).2.wire.length := by
      rw [← List.length_append, hwire]
    have hsz : target - got.length = need := by omega
    have hb : (s.read ph got.length (target - got.length)).1.length = min k need := by
      rw [hlen, hsz]; omega
    obtain ⟨fuel, g, s1, h, hgl⟩ := ih
      (got ++ (s.read ph got.length (target - got.length)).1)
      (s.read ph got.length (target - got.length)).2
      (by simpa using he) (by simp [hp]) (by rw [read_rd, hr, hb])
      (by rw [List.length_append, hb]; omega) (by omega) (by simpa using hel)
    exact ⟨fuel + 1, g, s1, by
      rw [recvLoop_read fuel ph target start got s ⟨by omega, (poll_data s k hpoll).1⟩
        (poll_data s k hpoll).2]
      exact h, hgl⟩
  | wait pos rd a need dt hn hd hdl _ ih =>
    intro got s he hp hr hg hw hel
    have hpoll : s.poll = Poll.idle dt := by rw [poll_eq s env rd pos he hr hp]; exact hd
    have hm : elapsed s.delay.millis start = a + dt.val := by
      rw [delay_millis s dt hpoll]
      exact elapsed_step _ _ _ _ hel (by unfold DEADLINE at hdl; unfold U32; omega)
    have ht : ¬ elapsed s.delay.millis start > DEADLINE := by rw [hm]; omega
    obtain ⟨fuel, g, s1, h, hgl⟩ := ih got s.delay (by simpa using he) (by simp [hp])
      (by simpa using hr) hg (by simpa using hw) hm
    exact ⟨fuel + 1, g, s1, by
      rw [recvLoop_wait fuel ph target start got s ⟨by omega, (poll_idle s dt hpoll).1⟩
        (poll_idle s dt hpoll).2 ht]
      exact h, hgl⟩

/-- A header that is on the wire and arrives within the deadline is what the
header loop returns. -/
theorem header_timely (s : Sys) (hdr rest : List Byte) (hlen : hdr.length = HEADER)
    (hw : s.wire = hdr ++ rest) (hf : Fills s.env s.pos s.rd 0 HEADER) :
    ∃ fuel s1 hv, recvLoop fuel Phase.header HEADER s.millis [] s = (some hdr, s1) ∧
      s1.wire = rest ∧ s1.env = s.env ∧ s1.rd = s.rd + HEADER ∧
      s1.is_playing_tts = s.is_playing_tts ∧ s1.log = s.log ++ hv ∧
      (∀ e ∈ hv, e.isHeaderRead) ∧ sinkBytes hv = [] ∧ s.connected = true := by
  obtain ⟨fuel, g, s1, h, hgl⟩ := recv_fills Phase.header HEADER s.millis s.env
    s.pos s.rd 0 HEADER hf [] s rfl rfl rfl (by simp)
    (by rw [hw, List.length_append]; omega) (elapsed_start _)
  obtain ⟨r1, r2, -, hv, r4, r5, r6, r7, -, r9⟩ :=
    recvLoop_spec fuel Phase.header HEADER s.millis [] s (Nat.zero_le _)
  rw [h] at r1 r2 r4 r6 r7 r9
  simp only at r1 r2 r4 r6 r7 r9
  have hg : g = readBytes hv := by simpa using r9 g rfl
  rw [← hg] at r6 r7
  rw [hw] at r6
  obtain ⟨e1, e2⟩ := List.append_inj r6 (by omega)
  subst e1
  exact ⟨fuel, s1, hv, h, e2, r1, by omega, r2, r4,
    fun e he => (headerRead_sane _ e (r5 e he)).2,
    sinkBytes_of_reads hv (fun e he => by
      obtain ⟨off, size, bs, h, -⟩ := r5 e he
      exact ⟨_, _, _, _, _, h⟩),
    fills_connected s 0 HEADER (by decide) hf⟩

/-- A whole frame on a connection whose header arrives within the deadline
and whose payload arrives steadily. -/
theorem frame_played (s : Sys) (hdr payload rest : List Byte)
    (hlen : hdr.length = HEADER) (hmagic : hdr.getD 0 0 = MAGIC)
    (hL : payload.length = data_len hdr) (hw : s.wire = hdr ++ payload ++ rest)
    (hpr : Fills s.env s.pos s.rd 0 HEADER)
    (hst : Steady s.env (s.rd + HEADER) (s.rd + HEADER + payload.length)) :
    ∃ fuel s2 evs, frameBody fuel s = (some Exit.next, s2) ∧ s2.log = s.log ++ evs ∧
      sinkBytes evs = payload ∧ s2.wire = rest ∧ s2.env = s.env ∧
      s2.rd = s.rd + HEADER + payload.length ∧
      s2.is_playing_tts = s.is_playing_tts ∧ s.connected = true := by
  obtain ⟨f1, s1, hv, hrecv, hw1, he1, hr1, hf1, hl1, -, hs1, hc⟩ :=
    header_timely s hdr (payload ++ rest) hlen (by rw [hw, List.append_assoc]) hpr
  obtain ⟨fuel, s2, pv, h1, h2, h3, -, h5, h6, h7, h8⟩ :=
    frame_after_header f1 s s1 hdr payload rest hrecv hlen hmagic hL hw1
      (by rw [he1, hr1]; exact hst)
  refine ⟨fuel, s2, hv ++ pv ++ [Ev.flush], h1, ?_, ?_, h5, h6.trans he1, by omega,
    h8.trans hf1, hc⟩
  · rw [h2, hl1]; simp
  · simp [hs1, h3, sinkBytes]

/-- A header with a wrong first byte, arriving within the deadline, ends the
pass by `break` after the header reads. -/
theorem frame_rejected (s : Sys) (hdr rest : List Byte)
    (hlen : hdr.length = HEADER) (hmagic : hdr.getD 0 0 ≠ MAGIC)
    (hw : s.wire = hdr ++ rest) (hpr : Fills s.env s.pos s.rd 0 HEADER) :
    ∃ fuel s1 hv, frameBody fuel s = (some Exit.brk, s1) ∧ s1.log = s.log ++ hv ∧
      (∀ e ∈ hv, e.isHeaderRead) ∧ sinkBytes hv = [] ∧ s1.wire = rest ∧
      s1.is_playing_tts = s.is_playing_tts ∧ s.connected = true := by
  obtain ⟨f1, s1, hv, hrecv, hw1, -, -, hf1, hl1, hh, hs1, hc⟩ :=
    header_timely s hdr rest hlen hw hpr
  exact ⟨f1, s1, hv, frameBody_magic f1 s s1 hdr hrecv (by omega) hmagic, hl1, hh, hs1,
    hw1, hf1, hc⟩

/-! ## Schedules in which every other poll finds nothing -/

/-- When polls alternate between a 20 ms wait and data, the bytes missing from
a receive loop arrive, as long as the waits fit in the deadline. -/
theorem fills_alternating (env : Nat → Nat → Poll) (k hi : Nat) (hk : 1 ≤ k)
    (henv : ∀ i n, n < hi → env i n = if i % 2 = 0 then Poll.idle 20 else Poll.data k) :
    ∀ need p rd a, rd + need ≤ hi → a + 20 * (need + 1) ≤ DEADLINE →
      Fills env p rd a need := by
  intro need
  induction need using Nat.strong_induction_on with
  | _ need ih =>
    intro p rd a hr ha
    have h20 : (20 : Wait).val = 20 := rfl
    by_cases hn : need = 0
    · subst hn; exact Fills.done p rd a
    · have hm : 1 ≤ min k need := by omega
      by_cases hp : p % 2 = 0
      · refine Fills.wait p rd a need 20 (by omega)
          (by rw [henv p rd (by omega), if_pos hp]) (by rw [h20]; omega) ?_
        refine Fills.data (p + 1) rd _ need k (by omega)
          (by rw [henv (p + 1) rd (by omega), if_neg (by omega)]) hk ?_
        exact ih (need - min k need) (by omega) (p + 1 + 1) (rd + min k need) _
          (by omega) (by rw [h20]; omega)
      · refine Fills.data p rd a need k (by omega)
          (by rw [henv p rd (by omega), if_neg hp]) hk ?_
        exact ih (need - min k need) (by omega) (p + 1) (rd + min k need) a
          (by omega) (by omega)

/-- When polls alternate between a 20 ms wait and data, the connection is
steady. -/
theorem steady_alternating (env : Nat → Nat → Poll) (k lo hi : Nat) (hk : 1 ≤ k)
    (henv : ∀ i n, n < hi → env i n = if i % 2 = 0 then Poll.idle 20 else Poll.data k) :
    Steady env lo hi := by
  intro n _ hn i
  by_cases hp : i % 2 = 0
  · refine Arrives.wait i 0 20 (by show env i n = _; rw [henv i n hn, if_pos hp]) (by decide) ?_
    exact Arrives.now (i + 1) _ k
      (by show env (i + 1) n = _; rw [henv (i + 1) n hn, if_neg (by omega)]) hk
  · exact Arrives.now i 0 k (by show env i n = _; rw [henv i n hn, if_neg hp]) hk

/-- Witness for C1: the sample frame whose four payload bytes come in two
pieces, with pauses; they reach the sink as sent. -/
theorem C1_payload_reaches_sink_witness :
    ∃ fuel s2 pv,
      frameBody fuel (((boot 0).accept pacedConn).setPlaying true) = (some Exit.next, s2) ∧
      sinkBytes pv = [21, 22, 23, 24] ∧ s2.wire = [] := by
  have hst : Steady pacedConn.env 16 (16 + 4) := by
    intro n h1 h2 i
    by_cases hi : i % 2 = 0
    · exact Arrives.now i 0 3
        (by simp [pacedConn, show ¬ n < 16 by omega, show n < 20 by omega, hi]) (by decide)
    · refine Arrives.wait i 0 3000
        (by simp [pacedConn, show ¬ n < 16 by omega, show n < 20 by omega, hi])
        (by decide) ?_
      exact Arrives.now (i + 1) _ 3
        (by simp [pacedConn, show ¬ n < 16 by omega, show n < 20 by omega,
              show (i + 1) % 2 = 0 by omega]) (by decide)
  obtain ⟨fuel, s2, pv, h1, -, h3, -, -, h6⟩ :=
    C1_payload_reaches_sink 2 (((boot 0).accept pacedConn).setPlaying true)
      (recvLoop 2 Phase.header HEADER (((boot 0).accept pacedConn).setPlaying true).millis []
        (((boot 0).accept pacedConn).setPlaying true)).2
      [80, 0, 0, 0, 0, 0, 0, 0, 0, 0, 0, 0, 4, 0, 0, 0] [21, 22, 23, 24] []
      (Prod.ext (by decide) rfl) (by decide) (by decide) (by decide) (by decide) hst
  exact ⟨fuel, s2, pv, h1, h3, h6⟩

/-! ## C6 -/

/-- C6: let a connection deliver a valid frame (header `hdr1` starting with
`'P'`, then the `data_len hdr1` bytes `p1`) and then sixteen more bytes `hdr2`,
each header arriving within the deadline counted from the start of its header
loop (polls may find nothing, reads may be partial) and each payload steadily.
`speakerTask` reads `hdr2` as a new header.  If `hdr2` is valid and its payload
`p2` follows steadily, two passes of the session loop complete, the loop goes
on to a third pass, and the sink has been handed `p1 ++ p2`.  If `hdr2` does
not start with `'P'`, the session ends: `client.stop()`, signal cleared, and
the sink has been handed exactly `p1`. -/
theorem C6_back_to_back_frames (c : Conn) (s0 : Sys) (hdr1 p1 hdr2 : List Byte)
    (hlen1 : hdr1.length = HEADER) (hmagic1 : hdr1.getD 0 0 = MAGIC)
    (hL1 : p1.length = data_len hdr1) (hlen2 : hdr2.length = HEADER)
    (hh1 : Fills c.env 0 0 0 HEADER)
    (hst1 : Steady c.env HEADER (HEADER + p1.length))
    (hh2 : ∀ p, Fills c.env p (HEADER + p1.length) 0 HEADER) :
    (∀ p2 rest, hdr2.getD 0 0 = MAGIC → p2.length = data_len hdr2 →
      c.wire = hdr1 ++ p1 ++ hdr2 ++ p2 ++ rest →
      Steady c.env (HEADER + p1.length + HEADER) (HEADER + p1.length + HEADER + p2.length) →
      ∃ fuel s1 s2 evs,
        frameBody fuel ((s0.accept c).setPlaying true) = (some Exit.next, s1) ∧
        frameBody fuel s1 = (some Exit.next, s2) ∧
        sessionLoop (fuel + 2) ((s0.accept c).setPlaying true) = sessionLoop fuel s2 ∧
        s2.log = ((s0.accept c).setPlaying true).log ++ evs ∧
        sinkBytes evs = p1 ++ p2 ∧ s2.wire = rest) ∧
    (∀ rest, hdr2.getD 0 0 ≠ MAGIC → c.wire = hdr1 ++ p1 ++ hdr2 ++ rest →
      ∃ fuel s1 evs,
        serve fuel c s0 = (some (), s1) ∧
        s1.log = s0.log ++ Ev.signal true :: (evs ++ [Ev.stop, Ev.signal false]) ∧
        sinkBytes evs = p1 ∧ s1.is_playing_tts = false ∧ s1.wire = rest) := by
  have he0 : ((s0.accept c).setPlaying true).env = c.env := rfl
  have hr0 : ((s0.accept c).setPlaying true).rd = 0 := rfl
  have hw0 : ((s0.accept c).setPlaying true).wire = c.wire := rfl
  have hf0 : Fills ((s0.accept c).setPlaying true).env ((s0.accept c).setPlaying true).pos
      ((s0.accept c).setPlaying true).rd 0 HEADER := hh1
  constructor
  · intro p2 rest hmagic2 hL2 hwire hst2
    obtain ⟨f1, s1, ev1, hf1, hl1, hs1, hw1, he1, hr1, -, hc0⟩ :=
      frame_played ((s0.accept c).setPlaying true) hdr1 p1 (hdr2 ++ p2 ++ rest)
        hlen1 hmagic1 hL1 (by rw [hw0, hwire]; simp) hf0
        (by rw [he0, hr0]; simpa using hst1)
    rw [hr0] at hr1
    rw [he0] at he1
    obtain ⟨f2, s2, ev2, hf2, hl2, hs2, hw2, -, -, -, hc1⟩ :=
      frame_played s1 hdr2 p2 rest hlen2 hmagic2 hL2 (by rw [hw1])
        (by rw [he1, hr1]; simpa using hh2 s1.pos) (by rw [he1, hr1]; simpa using hst2)
    obtain ⟨k1, k2, e1, e2⟩ := max_fuel f1 f2
    have hF1 : frameBody (max f1 f2) ((s0.accept c).setPlaying true) = (some Exit.next, s1) := by
      rw [e1]; exact frameBody_mono k1 f1 _ _ _ hf1
    have hF2 : frameBody (max f1 f2) s1 = (some Exit.next, s2) := by
      rw [e2]; exact frameBody_mono k2 f2 _ _ _ hf2
    refine ⟨max f1 f2, s1, s2, ev1 ++ ev2, hF1, hF2, ?_, ?_, ?_, hw2⟩
    · rw [sessionLoop_next (max f1 f2 + 1) _ s1 hc0 (frameBody_mono 1 _ _ _ _ hF1),
        sessionLoop_next (max f1 f2) s1 s2 hc1 hF2]
    · rw [hl2, hl1, List.append_assoc]
    · rw [sinkBytes_append, hs1, hs2]
  · intro rest hmagic2 hwire
    obtain ⟨f1, s1, ev1, hf1, hl1, hs1, hw1, he1, hr1, hflag1, hc0⟩ :=
      frame_played ((s0.accept c).setPlaying true) hdr1 p1 (hdr2 ++ rest)
        hlen1 hmagic1 hL1 (by rw [hw0, hwire]; simp) hf0
        (by rw [he0, hr0]; simpa using hst1)
    rw [hr0] at hr1
    rw [he0] at he1
    obtain ⟨f2, s2, ev2, hf2, hl2, -, hs2, hw2, hflag2, hc1⟩ :=
      frame_rejected s1 hdr2 rest hlen2 hmagic2 hw1
        (by rw [he1, hr1]; simpa using hh2 s1.pos)
    obtain ⟨k1, k2, e1, e2⟩ := max_fuel f1 f2
    have hF1 : frameBody (max f1 f2) ((s0.accept c).setPlaying true) = (some Exit.next, s1) := by
      rw [e1]; exact frameBody_mono k1 f1 _ _ _ hf1
    have hF2 : frameBody (max f1 f2) s1 = (some Exit.brk, s2) := by
      rw [e2]; exact frameBody_mono k2 f2 _ _ _ hf2
    have hses : sessionLoop (max f1 f2 + 2) ((s0.accept c).setPlaying true) = (some (), s2) := by
      rw [sessionLoop_next (max f1 f2 + 1) _ s1 hc0 (frameBody_mono 1 _ _ _ _ hF1),
        sessionLoop_brk (max f1 f2) s1 s2 hc1 hF2]
    refine ⟨max f1 f2 + 2, (s2.stop).setPlaying false, ev1 ++ ev2,
      serve_of_session _ c s0 s2 hses, ?_, ?_, rfl, hw2⟩
    · simp only [Sys.setPlaying, Sys.stop]
      rw [hl2, hl1]
      simp [Sys.setPlaying, Sys.accept]
    · rw [sinkBytes_append, hs1, hs2]; simp

/-- Witness for C6: with every other poll finding nothing, so that both
headers are waited for and arrive in four reads each, two valid frames back to
back reach the sink one after the other; a valid frame followed by sixteen
bytes starting with zero reaches the sink alone and the session ends. -/
theorem C6_back_to_back_frames_witness :
    (∃ fuel s1 s2 evs,
      frameBody fuel (((boot 0).accept slowFrames).setPlaying true) = (some Exit.next, s1) ∧
      frameBody fuel s1 = (some Exit.next, s2) ∧
      s2.log = (((boot 0).accept slowFrames).setPlaying true).log ++ evs ∧
      sinkBytes evs = [11, 12, 31, 32, 33] ∧ s2.wire = []) ∧
    (∃ fuel s1 evs,
      serve fuel slowJunk (boot 0) = (some (), s1) ∧
      s1.log = (boot 0).log ++ Ev.signal true :: (evs ++ [Ev.stop, Ev.signal false]) ∧
      sinkBytes evs = [11, 12] ∧ s1.is_playing_tts = false ∧ s1.wire = [31, 32, 33]) := by
  constructor
  · have henv : ∀ i n, n < 37 →
        slowFrames.env i n = if i % 2 = 0 then Poll.idle 20 else Poll.data 5 :=
      fun i n hn => by simp [slowFrames, hn]
    obtain ⟨fuel, s1, s2, evs, h1, h2, -, h4, h5, h6⟩ :=
      (C6_back_to_back_frames slowFrames (boot 0)
        [80, 0, 0, 0, 0, 0, 0, 0, 0, 0, 0, 0, 2, 0, 0, 0] [11, 12]
        [80, 0, 0, 0, 0, 0, 0, 0, 0, 0, 0, 0, 3, 0, 0, 0]
        (by decide) (by decide) (by decide) (by decide)
        (fills_alternating _ 5 37 (by decide) henv 16 0 0 0 (by decide) (by decide))
        (steady_sub _ 0 37 _ _ (steady_alternating _ 5 0 37 (by decide) henv)
          (by decide) (by decide))
        (fun p => fills_alternating _ 5 37 (by decide) henv 16 p 18 0 (by decide)
          (by decide))).1
        [31, 32, 33] [] (by decide) (by decide) (by decide)
        (steady_sub _ 0 37 _ _ (steady_alternating _ 5 0 37 (by decide) henv)
          (by decide) (by decide))
    exact ⟨fuel, s1, s2, evs, h1, h2, h4, h5, h6⟩
  · have henv : ∀ i n, n < 64 →
        slowJunk.env i n = if i % 2 = 0 then Poll.idle 20 else Poll.data 5 :=
      fun i n _ => rfl
    exact (C6_back_to_back_frames slowJunk (boot 0)
        [80, 0, 0, 0, 0, 0, 0, 0, 0, 0, 0, 0, 2, 0, 0, 0] [11, 12]
        [0, 0, 0, 0, 0, 0, 0, 0, 0, 0, 0, 0, 3, 0, 0, 0]
        (by decide) (by decide) (by decide) (by decide)
        (fills_alternating _ 5 64 (by decide) henv 16 0 0 0 (by decide) (by decide))
        (steady_sub _ 0 64 _ _ (steady_alternating _ 5 0 64 (by decide) henv)
          (by decide) (by decide))
        (fun p => fills_alternating _ 5 64 (by decide) henv 16 p 18 0 (by decide)
          (by decide))).2
        [31, 32, 33] (by decide) (by decide)

/-! ## A sender that has gone silent -/

theorem quiet_poll (s : Sys) (n : Nat) (hq : Quiet s.env n) (hn : n ≤ s.pos)
    (hc : s.connected = true) :
    ∃ dt, s.poll = Poll.idle dt ∧ 1 ≤ dt.val := by
  rcases hq s.pos hn s.rd with h | h
  · exact absurd hc (poll_closed s h)
  · exact h

/-- Past the point of silence a receive loop only waits, and gives up when the
deadline has passed. -/
theorem recv_quiet_tail (ph : Phase) (target start n : Nat) (got : List Byte) :
    ∀ (m : Nat) (s : Sys), n ≤ s.pos → Quiet s.env n →
      elapsed s.millis start ≤ DEADLINE → DEADLINE + 1 - elapsed s.millis start ≤ m →
      ∃ fuel s1, recvLoop fuel ph target start got s = (some got, s1) := by
  intro m
  induction m with
  | zero => intro s _ _ h1 h2; omega
  | succ m ih =>
    intro s hn hq h1 h2
    by_cases hc : got.length < target ∧ s.connected = true
    · obtain ⟨dt, hpoll, hd1⟩ := quiet_poll s n hq hn hc.2
      have hd2 := dt.isLt
      have hm : elapsed s.delay.millis start = elapsed s.millis start + dt.val := by
        rw [delay_millis s dt hpoll]
        exact elapsed_step _ _ _ _ rfl
          (by unfold DEADLINE at h1; unfold U32; omega)
      by_cases ht : elapsed s.delay.millis start > DEADLINE
      · exact ⟨1, s.delay, recvLoop_late 0 ph target start got s hc (poll_idle s dt hpoll).2 ht⟩
      · obtain ⟨fuel, s1, h⟩ := ih s.delay (by simp; omega) (by simpa using hq)
          (by omega) (by omega)
        exact ⟨fuel + 1, s1, by
          rw [recvLoop_wait fuel ph target start got s hc (poll_idle s dt hpoll).2 ht]
          exact h⟩
    · exact ⟨1, s, recvLoop_done 0 ph target start got s hc⟩

/-- With a sender that goes silent at some point, every receive loop comes to
an end; one started after that point returns what it was started with. -/
theorem recv_quiet (ph : Phase) (target start n : Nat) :
    ∀ (d : Nat) (got : List Byte) (s : Sys), n - s.pos ≤ d → Quiet s.env n →
      elapsed s.millis start ≤ DEADLINE →
      ∃ fuel g s1, recvLoop fuel ph target start got s = (some g, s1) ∧
        (n ≤ s.pos → g = got) := by
  intro d
  induction d with
  | zero =>
    intro got s hd hq he
    obtain ⟨fuel, s1, h⟩ := recv_quiet_tail ph target start n got _ s (by omega) hq he
      (le_refl _)
    exact ⟨fuel, got, s1, h, fun _ => rfl⟩
  | succ d ih =>
    intro got s hd hq he
    by_cases hn : n ≤ s.pos
    · obtain ⟨fuel, s1, h⟩ := recv_quiet_tail ph target start n got _ s hn hq he (le_refl _)
      exact ⟨fuel, got, s1, h, fun _ => rfl⟩
    · by_cases hc : got.length < target ∧ s.connected = true
      · by_cases ha : s.available = true
        · obtain ⟨fuel, g, s1, h, -⟩ := ih
            (got ++ (s.read ph got.length (target - got.length)).1)
            (s.read ph got.length (target - got.length)).2
            (by simp only [read_pos]; omega) (by simpa using hq) (by simpa using he)
          exact ⟨fuel + 1, g, s1, by
            rw [recvLoop_read fuel ph target start got s hc ha]; exact h,
            fun h => absurd h hn⟩
        · by_cases ht : elapsed s.delay.millis start > DEADLINE
          · exact ⟨1, got, s.delay, recvLoop_late 0 ph target start got s hc ha ht,
              fun _ => rfl⟩
          · obtain ⟨fuel, g, s1, h, -⟩ := ih got s.delay (by simp only [delay_pos]; omega)
              (by simpa using hq) (by omega)
            exact ⟨fuel + 1, g, s1, by
              rw [recvLoop_wait fuel ph target start got s hc ha ht]; exact h,
              fun h => absurd h hn⟩
      · exact ⟨1, got, s, recvLoop_done 0 ph target start got s hc, fun _ => rfl⟩

/-- A receive loop that returns more than it was started with has polled. -/
theorem recv_polled (ph : Phase) (target start : Nat) :
    ∀ (fuel : Nat) (got : List Byte) (s : Sys) (g : List Byte) (s1 : Sys),
      recvLoop fuel ph target start got s = (some g, s1) → got.length < g.length →
      s.pos < s1.pos := by
  intro fuel
  induction fuel with
  | zero => intro got s g s1 h; simp [recvLoop] at h
  | succ fuel ih =>
    intro got s g s1 h hl
    by_cases hc : got.length < target ∧ s.connected = true
    · by_cases ha : s.available = true
      · rw [recvLoop_read fuel ph target start got s hc ha] at h
        have hg1 : (got ++ (s.read ph got.length (target - got.length)).1).length ≤ target := by
          have := read_length_le s ph got.length (target - got.length)
          rw [List.length_append]; omega
        obtain ⟨-, -, h3, -⟩ := recvLoop_spec fuel ph target start _ _ hg1
        rw [h] at h3
        simp only [read_pos] at h3
        omega
      · by_cases ht : elapsed s.delay.millis start > DEADLINE
        · rw [recvLoop_late fuel ph target start got s hc ha ht] at h
          have : g = got := by
            have := congrArg Prod.fst h
            simpa using this.symm
          rw [this] at hl; omega
        · rw [recvLoop_wait fuel ph target start got s hc ha ht] at h
          have := ih got s.delay g s1 h hl
          simp only [delay_pos] at this
          omega
    · rw [recvLoop_done fuel ph target start got s hc] at h
      have : g = got := by
        have := congrArg Prod.fst h
        simpa using this.symm
      rw [this] at hl; omega

/-- With a sender that goes silent at some point, the payload loop comes to an
end. -/
theorem play_quiet (n : Nat) :
    ∀ (d remaining : Nat) (s : Sys), n - s.pos ≤ d → remaining < U32 → Quiet s.env n →
      ∃ fuel r s1, playLoop fuel remaining s = (some r, s1) := by
  intro d
  induction d using Nat.strong_induction_on with
  | _ d ih =>
    intro remaining s hd hlt hq
    by_cases hc : remaining > 0 ∧ s.connected = true
    · obtain ⟨f1, g, s1, hrecv, hsame⟩ := recv_quiet Phase.payload (to_read remaining)
        s.millis n (n - s.pos) [] s (le_refl _) hq (by rw [elapsed_start]; omega)
      by_cases hz : g.length = 0
      · exact ⟨f1 + 1, remaining, s1, playLoop_stall f1 remaining s s1 g hc hrecv hz⟩
      · have hpos : s.pos < n := by
          by_contra hcon
          have := hsame (by omega)
          rw [this] at hz; simp at hz
        have hadv := recv_polled Phase.payload (to_read remaining) s.millis f1 [] s g s1 hrecv
          (by simp only [List.length_nil]; omega)
        obtain ⟨r1, -, -, evs, -, -, -, -, r8, r9⟩ :=
          recvLoop_spec f1 Phase.payload (to_read remaining) s.millis [] s (Nat.zero_le _)
        rw [hrecv] at r1 r9
        simp only at r1 r9
        have hge : g = readBytes evs := by simpa using r9 g rfl
        have hgl : g.length ≤ remaining := by
          have := (to_read_le remaining).1
          rw [hge]; simp only [List.length_nil, Nat.zero_add] at r8; omega
        have hsub := subSize_eq remaining g.length hgl hlt
        obtain ⟨f2, r, s2, hplay⟩ := ih (n - s1.pos) (by omega) (remaining - g.length)
          (s1.i2s_write g) (by simp) (by omega) (by simpa [r1] using hq)
        obtain ⟨k1, k2, e1, e2⟩ := max_fuel f1 f2
        refine ⟨max f1 f2 + 1, r, s2, ?_⟩
        rw [playLoop_chunk (max f1 f2) remaining s s1 g hc
          (by rw [e1]; exact recvLoop_mono _ _ _ k1 f1 _ _ _ _ hrecv) hz, hsub, e2]
        exact playLoop_mono k2 f2 _ _ _ _ hplay
    · exact ⟨1, remaining, s, playLoop_done 0 remaining s hc⟩

/-- With a sender that goes silent at some point, one pass of the session loop
comes to an end; if it ends without `break`, it has polled before the point of
silence. -/
theorem frame_quiet (n : Nat) (s : Sys) (hq : Quiet s.env n) :
    ∃ fuel ex s1, frameBody fuel s = (some ex, s1) ∧ s1.env = s.env ∧
      (ex = Exit.next → s.pos < s1.pos ∧ s.pos < n) := by
  obtain ⟨f1, h, s1, hrecv, hsame⟩ := recv_quiet Phase.header HEADER s.millis n (n - s.pos)
    [] s (le_refl _) hq (by rw [elapsed_start]; omega)
  obtain ⟨r1, -, r3, -⟩ := recvLoop_spec f1 Phase.header HEADER s.millis [] s (Nat.zero_le _)
  rw [hrecv] at r1 r3
  simp only at r1 r3
  by_cases hl : h.length < HEADER
  · exact ⟨f1, Exit.brk, s1, frameBody_short f1 s s1 h hrecv hl, r1, by intro h; cases h⟩
  · by_cases hm : h.getD 0 0 ≠ MAGIC
    · exact ⟨f1, Exit.brk, s1, frameBody_magic f1 s s1 h hrecv hl hm, r1,
        by intro h; cases h⟩
    · have hpos : s.pos < n := by
        by_contra hcon
        have := hsame (by omega)
        rw [this] at hl; simp [HEADER] at hl
      have hadv := recv_polled Phase.header HEADER s.millis f1 [] s h s1 hrecv
        (by simp only [List.length_nil]; unfold HEADER at hl; omega)
      obtain ⟨f2, r, s2, hplay⟩ := play_quiet n (n - s1.pos) (data_len h) s1 (le_refl _)
        (data_len_lt h) (by rw [r1]; exact hq)
      obtain ⟨p1, -, p3, -⟩ := playLoop_spec f2 (data_len h) s1 (data_len_lt h)
      rw [hplay] at p1 p3
      simp only at p1 p3
      obtain ⟨k1, k2, e1, e2⟩ := max_fuel f1 f2
      refine ⟨max f1 f2, Exit.next, s2.i2s_zero_dma_buffer, ?_, ?_, ?_⟩
      · exact frameBody_play _ s s1 s2 h r
          (by rw [e1]; exact recvLoop_mono _ _ _ k1 f1 _ _ _ _ hrecv) hl hm
          (by rw [e2]; exact playLoop_mono k2 f2 _ _ _ _ hplay)
      · simp only [flush_env]; rw [p1, r1]
      · intro _
        simp only [flush_pos]
        omega

/-- With a sender that goes silent at some point, the session loop comes to
an end. -/
theorem session_quiet (n : Nat) :
    ∀ (d : Nat) (s : Sys), n - s.pos ≤ d → Quiet s.env n →
      ∃ fuel s1, sessionLoop fuel s = (some (), s1) := by
  intro d
  induction d using Nat.strong_induction_on with
  | _ d ih =>
    intro s hd hq
    by_cases hc : s.connected = true
    · obtain ⟨f1, ex, s1, hframe, he1, hnext⟩ := frame_quiet n s hq
      cases ex with
      | brk => exact ⟨f1 + 1, s1, sessionLoop_brk f1 s s1 hc hframe⟩
      | next =>
        obtain ⟨h1, h2⟩ := hnext rfl
        obtain ⟨f2, s2, hses⟩ := ih (n - s1.pos) (by omega) s1 (le_refl _)
          (by rw [he1]; exact hq)
        obtain ⟨k1, k2, e1, e2⟩ := max_fuel f1 f2
        refine ⟨max f1 f2 + 1, s2, ?_⟩
        rw [sessionLoop_next (max f1 f2) s s1 hc
          (by rw [e1]; exact frameBody_mono k1 f1 _ _ _ hframe), e2]
        exact sessionLoop_mono k2 f2 _ _ hses
    · exact ⟨1, s, sessionLoop_closed 0 s hc⟩

/-! ## C5 -/

/-- C5: if every empty poll lets at least 1 ms pass and from some poll on the
socket never has a byte available (the connection reporting up or closed as it
likes), whether that point falls inside a header, inside a payload or between
frames, then for some amount of fuel the session ends, with `client.stop()`
called and the signal `false`.  The clock is the 32-bit counter, so the
statement covers a rollover of `millis()` during the wait. -/
theorem C5_silent_sender_ends (c : Conn) (s : Sys) (n : Nat) (hq : Quiet c.env n) :
    ∃ fuel s1, serve fuel c s = (some (), s1) ∧ s1.is_playing_tts = false ∧
      ∃ evs, s1.log = s.log ++ Ev.signal true :: (evs ++ [Ev.stop, Ev.signal false]) := by
  obtain ⟨fuel, s1, hses⟩ := session_quiet n n ((s.accept c).setPlaying true)
    (by simp) hq
  obtain ⟨evs, -, hcase⟩ := serve_spec fuel c s
  rw [serve_of_session fuel c s s1 hses] at hcase
  rcases hcase with ⟨h, -⟩ | ⟨-, hf, hl, -⟩
  · cases h
  · exact ⟨fuel, _, serve_of_session fuel c s s1 hses, hf, evs, hl⟩

/-- Witness for C5: the sender goes silent in the middle of a
payload; the session ends. -/
theorem C5_silent_sender_ends_witness :
    Quiet lullConn.env 2 ∧
    ∃ fuel s1, serve fuel lullConn (boot 0) = (some (), s1) ∧ s1.is_playing_tts = false :=
  have hq : Quiet lullConn.env 2 := fun i hi r =>
    Or.inr ⟨1000, by simp [lullConn, show ¬ i < 2 by omega], by decide⟩
  ⟨hq, by
    obtain ⟨fuel, s1, h1, h2, -⟩ := C5_silent_sender_ends lullConn (boot 0) 2 hq
    exact ⟨fuel, s1, h1, h2⟩⟩

end Speaker
